import Mathlib

/-!
# Nebula Reconstruction Kit — a shallow embedding

A Lean embedding of `packages/python/nebula_reconstruct`:

* `erasure.py` — systematic Reed–Solomon erasure coding over GF(2^8)
  (`encode_data`, `reconstruct_data`, `analyze_reconstruction`).  The Python
  code delegates the per-column Galois-field work to the external `reedsolo`
  library, which is not part of this repository; those two operations (the
  systematic RS encode of one column and the erasure decode of one column)
  are modelled from the specification (§4.1, §4.2) and carry doc comments
  saying so.
* `manifest.py` — manifest structural validation and the Merkle root
  (`verify_manifest`, `compute_merkle_root`), over a SHA-256 embedded from
  FIPS 180-4 (the Python code calls `hashlib.sha256`).
* `reconstruct.py` — shard loading plus the reconstruction orchestrator
  (`load_and_verify_shards`, `reconstruct_file`).  The filesystem is passed
  explicitly as a finite map from path to file bytes, and the AES-256-GCM
  open (the external `cryptography` library) is a parameter constrained by
  the one property the claims need.
* `cli.py` — the `rebuild` command (`cmd_rebuild`), with Python's dynamic
  typing of the value passed to `Path.write_bytes` made explicit.

Bytes are `GF256` (a wrapper around `Fin 256`); Python `bytes` values are
`List GF256`.  All definitions are structurally recursive (fuel-based where
the Python loop is not structural) so that every theorem below can be
checked by kernel evaluation on concrete inputs.
-/

namespace Nebula

/-! ## Carry-less binary-polynomial arithmetic on `Nat`

A natural number is read as a polynomial over GF(2) (bit `i` is the
coefficient of `x^i`).  Addition is XOR; `cmul` is carry-less (polynomial)
multiplication; `cmod` reduces modulo the Reed–Solomon primitive polynomial
`0x11D = x^8 + x^4 + x^3 + x^2 + 1`.  This is the arithmetic that the
log/antilog tables of §4.1 (and of `reedsolo`) tabulate. -/

/-- Carry-less (GF(2)[x]) multiplication, Russian-peasant style, with
explicit fuel; fuel `a` is always enough because `a` halves each step. -/
def cmulF : Nat → Nat → Nat → Nat
  | 0, _, _ => 0
  | fuel + 1, a, b =>
    if a = 0 then 0
    else (if a % 2 = 1 then b else 0) ^^^ cmulF fuel (a / 2) (2 * b)

/-- Carry-less product of two naturals viewed as GF(2) polynomials. -/
def cmul (a b : Nat) : Nat := cmulF a a b

/-- Number of binary digits of `n` (0 for 0), with explicit fuel. -/
def bitlenF : Nat → Nat → Nat
  | 0, _ => 0
  | fuel + 1, n => if n = 0 then 0 else bitlenF fuel (n / 2) + 1

/-- Number of binary digits of `n`; the degree of `n` as a GF(2) polynomial
is `bitlen n - 1`. -/
def bitlen (n : Nat) : Nat := bitlenF n n

/-- The Reed–Solomon primitive polynomial of GF(2^8),
`x^8 + x^4 + x^3 + x^2 + 1`. -/
def rsPrim : Nat := 0x11D

/-- Reduction modulo `rsPrim`, with explicit fuel: repeatedly cancel the
leading bit by XOR-ing in a shifted copy of the modulus.  Each step strictly
decreases the value, so fuel `a` is always enough. -/
def cmodF : Nat → Nat → Nat
  | 0, a => a
  | fuel + 1, a =>
    if a < 256 then a else cmodF fuel (a ^^^ (rsPrim <<< (bitlen a - 9)))

/-- Remainder of a GF(2) polynomial modulo `rsPrim`. -/
def cmod (a : Nat) : Nat := cmodF a a

theorem cmulF_zero (f b : Nat) : cmulF f 0 b = 0 := by
  cases f <;> simp [cmulF]

theorem cmulF_congr : ∀ f g a b : Nat, a ≤ f → a ≤ g → cmulF f a b = cmulF g a b := by
  intro f
  induction f with
  | zero =>
    intro g a b hf _
    have : a = 0 := Nat.le_zero.mp hf
    subst this
    rw [cmulF_zero, cmulF_zero]
  | succ f ih =>
    intro g a b hf hg
    by_cases ha : a = 0
    · subst ha; rw [cmulF_zero, cmulF_zero]
    · have ha1 : 1 ≤ a := Nat.one_le_iff_ne_zero.mpr ha
      obtain ⟨g', rfl⟩ : ∃ g', g = g' + 1 :=
        ⟨g - 1, by omega⟩
      simp only [cmulF, ha, if_false]
      have hdiv : a / 2 ≤ f := by omega
      have hdiv' : a / 2 ≤ g' := by omega
      rw [ih g' (a / 2) (2 * b) hdiv hdiv']

/-- The defining recurrence of `cmul`, fuel eliminated. -/
theorem cmul_rec (a b : Nat) (ha : a ≠ 0) :
    cmul a b = (if a % 2 = 1 then b else 0) ^^^ cmul (a / 2) (2 * b) := by
  obtain ⟨a', rfl⟩ : ∃ a', a = a' + 1 := ⟨a - 1, by omega⟩
  show cmulF (a' + 1) (a' + 1) b = _
  simp only [cmulF, ha, if_false]
  congr 1
  exact cmulF_congr a' ((a' + 1) / 2) ((a' + 1) / 2) (2 * b) (by omega) (Nat.le_refl _)

theorem cmul_zero_left (b : Nat) : cmul 0 b = 0 := rfl

theorem cmul_zero_right (a : Nat) : cmul a 0 = 0 := by
  induction a using Nat.strong_induction_on with
  | _ a ih =>
    by_cases ha : a = 0
    · subst ha; rfl
    · rw [cmul_rec a 0 ha]
      have := ih (a / 2) (by omega)
      simp only [Nat.mul_zero, this]
      cases Nat.decEq (a % 2) 1 <;> simp [*]

theorem two_mul_xor (a b : Nat) : 2 * (a ^^^ b) = 2 * a ^^^ 2 * b := by
  have h : ∀ x : Nat, 2 * x = x <<< 1 := fun x => by
    rw [Nat.shiftLeft_eq, Nat.pow_one, Nat.mul_comm]
  rw [h, h, h]
  apply Nat.eq_of_testBit_eq
  intro i
  simp only [Nat.testBit_xor, Nat.testBit_shiftLeft]
  cases i with
  | zero => simp
  | succ j => simp [Nat.testBit_xor]

theorem xor_div_two (a b : Nat) : (a ^^^ b) / 2 = a / 2 ^^^ b / 2 := by
  have h : ∀ x : Nat, x / 2 = x >>> 1 := fun x => by
    rw [Nat.shiftRight_eq_div_pow, Nat.pow_one]
  rw [h, h, h]
  apply Nat.eq_of_testBit_eq
  intro i
  simp [Nat.testBit_shiftRight, Nat.testBit_xor]

theorem xor_mod_two (a b : Nat) : (a ^^^ b) % 2 = (a % 2 + b % 2) % 2 := by
  have ha := Nat.mod_two_eq_zero_or_one a
  have hb := Nat.mod_two_eq_zero_or_one b
  have key : ∀ x : Nat, x % 2 = if x.testBit 0 then 1 else 0 := fun x => by
    simp [Nat.testBit_zero]
    rcases Nat.mod_two_eq_zero_or_one x with h | h <;> simp [h]
  rw [key, key, key, Nat.testBit_xor]
  rcases ha with h1 | h1 <;> rcases hb with h2 | h2 <;>
    simp [Nat.testBit_zero, h1, h2]

theorem two_mul_add_bit (x r : Nat) (hr : r < 2) : 2 * x ^^^ r = 2 * x + r := by
  interval_cases r
  · simp
  · apply Nat.eq_of_testBit_eq
    intro i
    cases i with
    | zero =>
      simp [Nat.testBit_xor, Nat.testBit_zero, Nat.mul_add_mod,
        Nat.add_mul_mod_self_left]
    | succ j =>
      have h1 : (2 * x + 1) / 2 = x := by omega
      have h2 : (2 * x) / 2 = x := by omega
      simp [Nat.testBit_xor, Nat.testBit_succ, h1, h2, xor_div_two]

theorem div2_add_bit (a : Nat) : 2 * (a / 2) ^^^ a % 2 = a := by
  rw [two_mul_add_bit _ _ (Nat.mod_lt _ (by omega))]
  omega

theorem xor_left_comm (a b c : Nat) : a ^^^ (b ^^^ c) = b ^^^ (a ^^^ c) := by
  rw [← Nat.xor_assoc, Nat.xor_comm a b, Nat.xor_assoc]

theorem cmul_xor_right : ∀ a b c : Nat, cmul a (b ^^^ c) = cmul a b ^^^ cmul a c := by
  intro a
  induction a using Nat.strong_induction_on with
  | _ a ih =>
    intro b c
    by_cases ha : a = 0
    · subst ha; simp [cmul_zero_left]
    · rw [cmul_rec a (b ^^^ c) ha, cmul_rec a b ha, cmul_rec a c ha,
        two_mul_xor, ih (a / 2) (by omega)]
      by_cases hp : a % 2 = 1 <;>
        simp only [hp, if_true, if_false, reduceIte, Nat.zero_xor]
      · rw [Nat.xor_assoc, Nat.xor_assoc]
        congr 1
        rw [xor_left_comm]

theorem cmul_two_right : ∀ a b : Nat, cmul a (2 * b) = 2 * cmul a b := by
  intro a
  induction a using Nat.strong_induction_on with
  | _ a ih =>
    intro b
    by_cases ha : a = 0
    · subst ha; simp [cmul_zero_left]
    · rw [cmul_rec a (2 * b) ha, cmul_rec a b ha, two_mul_xor,
        ih (a / 2) (by omega)]
      by_cases hp : a % 2 = 1 <;> simp [hp]

theorem cmul_two_left (a b : Nat) : cmul (2 * a) b = 2 * cmul a b := by
  by_cases ha : a = 0
  · subst ha; simp [cmul_zero_left]
  · rw [cmul_rec (2 * a) b (by omega)]
    have h2 : 2 * a % 2 = 0 := by omega
    have h3 : 2 * a / 2 = a := by omega
    rw [h2, h3]
    simp [cmul_two_right]

theorem cmul_one_right : ∀ a : Nat, cmul a 1 = a := by
  intro a
  induction a using Nat.strong_induction_on with
  | _ a ih =>
    by_cases ha : a = 0
    · subst ha; rfl
    · rw [cmul_rec a 1 ha, show (2 : Nat) * 1 = 2 * 1 from rfl,
        cmul_two_right, ih (a / 2) (by omega)]
      have hif : (if a % 2 = 1 then 1 else 0) = a % 2 := by
        rcases Nat.mod_two_eq_zero_or_one a with h | h <;> simp [h]
      rw [hif, Nat.xor_comm, div2_add_bit]

theorem cmul_comm : ∀ b a : Nat, cmul a b = cmul b a := by
  intro b
  induction b using Nat.strong_induction_on with
  | _ b ih =>
    intro a
    by_cases hb : b = 0
    · subst hb; rw [cmul_zero_left, cmul_zero_right]
    · rw [cmul_rec b a hb, cmul_two_right]
      conv_lhs => rw [← div2_add_bit b]
      rw [cmul_xor_right, cmul_two_right, ih (b / 2) (by omega)]
      have hif : cmul a (b % 2) = if b % 2 = 1 then a else 0 := by
        rcases Nat.mod_two_eq_zero_or_one b with h | h <;>
          simp [h, cmul_zero_right, cmul_one_right]
      rw [hif, Nat.xor_comm]

theorem cmul_xor_left (a b c : Nat) : cmul (a ^^^ b) c = cmul a c ^^^ cmul b c := by
  rw [cmul_comm c (a ^^^ b), cmul_xor_right, cmul_comm a c, cmul_comm b c]

theorem cmul_one_left (b : Nat) : cmul 1 b = b := by
  rw [cmul_comm b 1, cmul_one_right]

theorem cmul_assoc : ∀ a b c : Nat, cmul (cmul a b) c = cmul a (cmul b c) := by
  intro a
  induction a using Nat.strong_induction_on with
  | _ a ih =>
    intro b c
    by_cases ha : a = 0
    · subst ha; simp [cmul_zero_left]
    · rw [cmul_rec a b ha, cmul_xor_left, cmul_two_right, cmul_two_left,
        ih (a / 2) (by omega), ← cmul_two_right, cmul_rec a (cmul b c) ha]
      congr 1
      rcases Nat.mod_two_eq_zero_or_one a with h | h <;>
        simp [h, cmul_zero_left]

theorem bitlenF_zero (f : Nat) : bitlenF f 0 = 0 := by
  cases f <;> simp [bitlenF]

theorem bitlenF_congr : ∀ f g n : Nat, n ≤ f → n ≤ g → bitlenF f n = bitlenF g n := by
  intro f
  induction f with
  | zero =>
    intro g n hf _
    have : n = 0 := Nat.le_zero.mp hf
    subst this
    rw [bitlenF_zero, bitlenF_zero]
  | succ f ih =>
    intro g n hf hg
    by_cases hn : n = 0
    · subst hn; rw [bitlenF_zero, bitlenF_zero]
    · obtain ⟨g', rfl⟩ : ∃ g', g = g' + 1 := ⟨g - 1, by omega⟩
      simp only [bitlenF, hn, if_false]
      rw [ih g' (n / 2) (by omega) (by omega)]

theorem bitlen_rec (n : Nat) (hn : n ≠ 0) : bitlen n = bitlen (n / 2) + 1 := by
  obtain ⟨n', rfl⟩ : ∃ n', n = n' + 1 := ⟨n - 1, by omega⟩
  show bitlenF (n' + 1) (n' + 1) = _
  simp only [bitlenF, hn, if_false]
  congr 1
  exact bitlenF_congr n' ((n' + 1) / 2) ((n' + 1) / 2) (by omega) (Nat.le_refl _)

theorem bitlen_zero : bitlen 0 = 0 := rfl

theorem bitlen_bounds : ∀ n : Nat, n ≠ 0 → 2 ^ (bitlen n - 1) ≤ n ∧ n < 2 ^ bitlen n := by
  intro n
  induction n using Nat.strong_induction_on with
  | _ n ih =>
    intro hn
    by_cases h1 : n = 1
    · subst h1; exact ⟨by decide, by decide⟩
    · have hn2 : 2 ≤ n := by omega
      have hd : n / 2 ≠ 0 := by omega
      obtain ⟨hlo, hhi⟩ := ih (n / 2) (by omega) hd
      rw [bitlen_rec n hn]
      have hb1 : 1 ≤ bitlen (n / 2) := by
        by_contra hb
        have : bitlen (n / 2) = 0 := by omega
        rw [this] at hhi
        omega
      constructor
      · calc 2 ^ (bitlen (n / 2) + 1 - 1) = 2 * 2 ^ (bitlen (n / 2) - 1) := by
              rw [← Nat.pow_succ']
              congr 1
              omega
          _ ≤ 2 * (n / 2) := by omega
          _ ≤ n := by omega
      · calc n < 2 * (n / 2) + 2 := by omega
          _ ≤ 2 * 2 ^ bitlen (n / 2) := by omega
          _ = 2 ^ (bitlen (n / 2) + 1) := (Nat.pow_succ' ..).symm

theorem testBit_top (x d : Nat) (hlo : 2 ^ d ≤ x) (hhi : x < 2 ^ (d + 1)) :
    x.testBit d = true := by
  rw [Nat.testBit_to_div_mod]
  have h1 : x / 2 ^ d = 1 := by
    apply Nat.div_eq_of_lt_le (by omega)
    have := Nat.pow_succ 2 d
    omega
  simp [h1]

theorem xor_top_cancel (x y d : Nat) (hx1 : 2 ^ d ≤ x) (hx2 : x < 2 ^ (d + 1))
    (hy1 : 2 ^ d ≤ y) (hy2 : y < 2 ^ (d + 1)) : x ^^^ y < 2 ^ d := by
  apply Nat.lt_pow_two_of_testBit
  intro i hi
  rw [Nat.testBit_xor]
  by_cases hid : i = d
  · subst hid
    rw [testBit_top x i hx1 hx2, testBit_top y i hy1 hy2]
    rfl
  · have hgt : d + 1 ≤ i := by omega
    have h2 : (2 : Nat) ^ (d + 1) ≤ 2 ^ i := Nat.pow_le_pow_right (by omega) hgt
    rw [Nat.testBit_lt_two_pow (by omega), Nat.testBit_lt_two_pow (by omega)]
    rfl

theorem xor_keep_top (x y m : Nat) (hx1 : 2 ^ m ≤ x) (hx2 : x < 2 ^ (m + 1))
    (hy : y < 2 ^ m) :
    2 ^ m ≤ x ^^^ y ∧ x ^^^ y < 2 ^ (m + 1) := by
  constructor
  · by_contra hlt
    have h1 : x ^^^ y < 2 ^ m := by omega
    have h2 : (x ^^^ y) ^^^ y < 2 ^ m := Nat.xor_lt_two_pow h1 hy
    rw [Nat.xor_assoc, Nat.xor_self, Nat.xor_zero] at h2
    omega
  · exact Nat.xor_lt_two_pow hx2 (by
      have : (2 : Nat) ^ m ≤ 2 ^ (m + 1) := Nat.pow_le_pow_right (by omega) (by omega)
      omega)

theorem cmul_pow_two_left (s b : Nat) : cmul (2 ^ s) b = 2 ^ s * b := by
  induction s with
  | zero => simp [cmul_one_left]
  | succ s ih =>
    rw [Nat.pow_succ, Nat.mul_comm (2 ^ s) 2, Nat.mul_assoc, cmul_two_left, ih]

/-- Joint lower/upper bound on a carry-less product of nonzero polynomials:
its bit length is `bitlen a + bitlen b - 1`. -/
theorem cmul_bounds : ∀ a b : Nat, a ≠ 0 → b ≠ 0 →
    2 ^ (bitlen a + bitlen b - 2) ≤ cmul a b ∧
      cmul a b < 2 ^ (bitlen a + bitlen b - 1) := by
  intro a
  induction a using Nat.strong_induction_on with
  | _ a ih =>
    intro b ha hb
    obtain ⟨hb1, hb2⟩ := bitlen_bounds b hb
    have hbl1 : 1 ≤ bitlen b := by
      by_contra h
      have : bitlen b = 0 := by omega
      rw [this] at hb2
      omega
    by_cases h1 : a = 1
    · subst h1
      rw [cmul_one_left]
      show 2 ^ (1 + bitlen b - 2) ≤ b ∧ b < 2 ^ (1 + bitlen b - 1)
      constructor
      · calc 2 ^ (1 + bitlen b - 2) = 2 ^ (bitlen b - 1) := by congr 1; omega
          _ ≤ b := hb1
      · calc b < 2 ^ bitlen b := hb2
          _ = 2 ^ (1 + bitlen b - 1) := by congr 1; omega
    · have ha2 : 2 ≤ a := by omega
      have had : a / 2 ≠ 0 := by omega
      obtain ⟨hlo, hhi⟩ := ih (a / 2) (by omega) b had hb
      have hal1 : 1 ≤ bitlen (a / 2) := by
        obtain ⟨h1', h2'⟩ := bitlen_bounds (a / 2) had
        by_contra h
        have : bitlen (a / 2) = 0 := by omega
        rw [this] at h2'
        omega
      rw [cmul_rec a b ha, cmul_two_right]
      set m := bitlen (a / 2) + bitlen b - 1 with hm
      have hx1 : 2 ^ m ≤ 2 * cmul (a / 2) b := by
        calc 2 ^ m = 2 * 2 ^ (bitlen (a / 2) + bitlen b - 2) := by
              rw [← Nat.pow_succ']
              congr 1
              omega
          _ ≤ 2 * cmul (a / 2) b := by omega
      have hx2 : 2 * cmul (a / 2) b < 2 ^ (m + 1) := by
        calc 2 * cmul (a / 2) b < 2 * 2 ^ m := by omega
          _ = 2 ^ (m + 1) := by rw [← Nat.pow_succ']
      have hy : (if a % 2 = 1 then b else 0) < 2 ^ m := by
        have : b < 2 ^ m := by
          calc b < 2 ^ bitlen b := hb2
            _ ≤ 2 ^ m := Nat.pow_le_pow_right (by omega) (by omega)
        split <;> omega
      have hkeep := xor_keep_top (2 * cmul (a / 2) b) (if a % 2 = 1 then b else 0)
        m hx1 hx2 hy
      rw [Nat.xor_comm]
      have hba : bitlen a = bitlen (a / 2) + 1 := bitlen_rec a ha
      constructor
      · calc 2 ^ (bitlen a + bitlen b - 2) = 2 ^ m := by rw [hba]; congr 1; omega
          _ ≤ _ := hkeep.1
      · calc _ < 2 ^ (m + 1) := hkeep.2
          _ = 2 ^ (bitlen a + bitlen b - 1) := by rw [hba]; congr 1; omega

theorem xor_eq_zero_iff (a b : Nat) : a ^^^ b = 0 ↔ a = b := by
  constructor
  · intro h
    have : a ^^^ (a ^^^ b) = a ^^^ 0 := by rw [h]
    rwa [← Nat.xor_assoc, Nat.xor_self, Nat.zero_xor, Nat.xor_zero, eq_comm] at this
  · intro h
    rw [h, Nat.xor_self]

theorem bitlen_ge_9 (a : Nat) (h : 256 ≤ a) : 9 ≤ bitlen a := by
  obtain ⟨_, h2⟩ := bitlen_bounds a (by omega)
  by_contra hb
  have hle : bitlen a ≤ 8 := by omega
  have : (2 : Nat) ^ bitlen a ≤ 2 ^ 8 := Nat.pow_le_pow_right (by omega) hle
  omega

theorem cmod_step (a : Nat) (h : 256 ≤ a) :
    a ^^^ (rsPrim <<< (bitlen a - 9)) < a ∧
      a = cmul (2 ^ (bitlen a - 9)) rsPrim ^^^ (a ^^^ (rsPrim <<< (bitlen a - 9))) := by
  have h9 := bitlen_ge_9 a h
  obtain ⟨ha1, ha2⟩ := bitlen_bounds a (by omega)
  have hshift : rsPrim <<< (bitlen a - 9) = 2 ^ (bitlen a - 9) * rsPrim := by
    rw [Nat.shiftLeft_eq, Nat.mul_comm]
  constructor
  · have hd : bitlen a - 1 = 8 + (bitlen a - 9) := by omega
    have hs1 : 2 ^ (bitlen a - 1) ≤ rsPrim <<< (bitlen a - 9) := by
      rw [hshift, hd, Nat.pow_add, Nat.mul_comm (2 ^ 8)]
      have : (256 : Nat) ≤ rsPrim := by decide
      calc 2 ^ (bitlen a - 9) * 2 ^ 8 ≤ 2 ^ (bitlen a - 9) * rsPrim :=
            Nat.mul_le_mul_left _ (by decide)
        _ = _ := rfl
    have hs2 : rsPrim <<< (bitlen a - 9) < 2 ^ (bitlen a - 1 + 1) := by
      rw [hshift]
      have hd2 : bitlen a - 1 + 1 = 9 + (bitlen a - 9) := by omega
      rw [hd2, Nat.pow_add, Nat.mul_comm (2 ^ 9)]
      exact mul_lt_mul_of_pos_left (by decide) (Nat.pos_pow_of_pos _ (by omega))
    have ha2' : a < 2 ^ (bitlen a - 1 + 1) := by
      have : bitlen a - 1 + 1 = bitlen a := by omega
      rw [this]
      exact ha2
    have ha1' : 2 ^ (bitlen a - 1) ≤ a := ha1
    have := xor_top_cancel a (rsPrim <<< (bitlen a - 9)) (bitlen a - 1) ha1' ha2' hs1 hs2
    calc a ^^^ _ < 2 ^ (bitlen a - 1) := this
      _ ≤ a := ha1
  · rw [cmul_pow_two_left, ← hshift, xor_left_comm, Nat.xor_self, Nat.xor_zero]

theorem cmodF_small (f a : Nat) (h : a < 256) : cmodF f a = a := by
  cases f <;> simp [cmodF, h]

theorem cmodF_congr : ∀ f g a : Nat, a ≤ f → a ≤ g → cmodF f a = cmodF g a := by
  intro f
  induction f with
  | zero =>
    intro g a hf _
    have : a = 0 := Nat.le_zero.mp hf
    subst this
    rw [cmodF_small _ _ (by omega), cmodF_small _ _ (by omega)]
  | succ f ih =>
    intro g a hf hg
    by_cases hs : a < 256
    · rw [cmodF_small _ _ hs, cmodF_small _ _ hs]
    · push_neg at hs
      obtain ⟨g', rfl⟩ : ∃ g', g = g' + 1 := ⟨g - 1, by omega⟩
      simp only [cmodF, Nat.not_lt.mpr hs, if_false]
      have hlt := (cmod_step a hs).1
      exact ih g' _ (by omega) (by omega)

theorem cmod_small (a : Nat) (h : a < 256) : cmod a = a := cmodF_small a a h

theorem cmod_rec (a : Nat) (h : 256 ≤ a) :
    cmod a = cmod (a ^^^ (rsPrim <<< (bitlen a - 9))) := by
  obtain ⟨a', rfl⟩ : ∃ a', a = a' + 1 := ⟨a - 1, by omega⟩
  show cmodF (a' + 1) (a' + 1) = _
  simp only [cmodF, Nat.not_lt.mpr h, if_false]
  have hlt := (cmod_step (a' + 1) h).1
  exact cmodF_congr a' _ _ (by omega) (Nat.le_refl _)

theorem cmod_lt : ∀ a : Nat, cmod a < 256 := by
  intro a
  induction a using Nat.strong_induction_on with
  | _ a ih =>
    by_cases hs : a < 256
    · rw [cmod_small a hs]; exact hs
    · push_neg at hs
      rw [cmod_rec a hs]
      exact ih _ (cmod_step a hs).1

theorem cmod_spec : ∀ a : Nat, ∃ q, a = cmul q rsPrim ^^^ cmod a := by
  intro a
  induction a using Nat.strong_induction_on with
  | _ a ih =>
    by_cases hs : a < 256
    · exact ⟨0, by rw [cmod_small a hs, cmul_zero_left, Nat.zero_xor]⟩
    · push_neg at hs
      obtain ⟨hlt, heq⟩ := cmod_step a hs
      obtain ⟨q', hq'⟩ := ih _ hlt
      refine ⟨2 ^ (bitlen a - 9) ^^^ q', ?_⟩
      rw [cmod_rec a hs]
      calc a = cmul (2 ^ (bitlen a - 9)) rsPrim ^^^ (a ^^^ rsPrim <<< (bitlen a - 9)) := heq
        _ = cmul (2 ^ (bitlen a - 9)) rsPrim ^^^
            (cmul q' rsPrim ^^^ cmod (a ^^^ rsPrim <<< (bitlen a - 9))) := by rw [← hq']
        _ = cmul (2 ^ (bitlen a - 9) ^^^ q') rsPrim ^^^
            cmod (a ^^^ rsPrim <<< (bitlen a - 9)) := by
          rw [cmul_xor_left, Nat.xor_assoc]

theorem cmul_rsPrim_ge (q : Nat) (hq : q ≠ 0) : 256 ≤ cmul q rsPrim := by
  obtain ⟨hlo, _⟩ := cmul_bounds q rsPrim hq (by decide)
  have hq1 : 1 ≤ bitlen q := by
    obtain ⟨_, h2⟩ := bitlen_bounds q hq
    by_contra h
    have : bitlen q = 0 := by omega
    rw [this] at h2
    omega
  have hp : bitlen rsPrim = 9 := by decide
  rw [hp] at hlo
  calc (256 : Nat) = 2 ^ 8 := by decide
    _ ≤ 2 ^ (bitlen q + 9 - 2) := Nat.pow_le_pow_right (by omega) (by omega)
    _ ≤ cmul q rsPrim := hlo

theorem xor_swap (a b c d : Nat) (h : a ^^^ b = c ^^^ d) : a ^^^ c = b ^^^ d := by
  have h1 : a ^^^ c = (a ^^^ b) ^^^ (b ^^^ c) := by
    rw [Nat.xor_assoc, ← Nat.xor_assoc b b c, Nat.xor_self, Nat.zero_xor]
  rw [h1, h, Nat.xor_assoc, xor_left_comm d b c, xor_left_comm c b (d ^^^ c),
    xor_left_comm c d c, Nat.xor_self, Nat.xor_zero]

theorem cmod_unique (a q r : Nat) (hr : r < 256) (h : a = cmul q rsPrim ^^^ r) :
    cmod a = r := by
  obtain ⟨q0, hq0⟩ := cmod_spec a
  have hx : cmul q0 rsPrim ^^^ cmod a = cmul q rsPrim ^^^ r := by rw [← hq0, ← h]
  have hxx : cmul (q0 ^^^ q) rsPrim = cmod a ^^^ r := by
    rw [cmul_xor_left]
    exact xor_swap _ _ _ _ hx
  by_cases hq : q0 ^^^ q = 0
  · rw [hq, cmul_zero_left] at hxx
    exact (xor_eq_zero_iff _ _).mp hxx.symm
  · exfalso
    have h1 := cmul_rsPrim_ge _ hq
    have h2 : cmod a ^^^ r < 256 := by
      have h256 : (256 : Nat) = 2 ^ 8 := by decide
      rw [h256] at *
      exact Nat.xor_lt_two_pow (cmod_lt a) hr
    omega

theorem cmod_xor (a b : Nat) : cmod (a ^^^ b) = cmod a ^^^ cmod b := by
  obtain ⟨qa, ha⟩ := cmod_spec a
  obtain ⟨qb, hb⟩ := cmod_spec b
  apply cmod_unique _ (qa ^^^ qb)
  · have h256 : (256 : Nat) = 2 ^ 8 := by decide
    rw [h256]
    exact Nat.xor_lt_two_pow (cmod_lt a) (cmod_lt b)
  · rw [cmul_xor_left]
    calc a ^^^ b = (cmul qa rsPrim ^^^ cmod a) ^^^ (cmul qb rsPrim ^^^ cmod b) := by
          rw [← ha, ← hb]
      _ = (cmul qa rsPrim ^^^ cmul qb rsPrim) ^^^ (cmod a ^^^ cmod b) := by
          rw [Nat.xor_assoc, Nat.xor_assoc, xor_left_comm (cmod a)]

theorem cmod_cmod (a : Nat) : cmod (cmod a) = cmod a := cmod_small _ (cmod_lt a)

theorem cmod_cmul_left (a b : Nat) : cmod (cmul (cmod a) b) = cmod (cmul a b) := by
  obtain ⟨q, hq⟩ := cmod_spec a
  have key : cmul a b = cmul (cmul q b) rsPrim ^^^ cmul (cmod a) b := by
    calc cmul a b = cmul (cmul q rsPrim ^^^ cmod a) b := by rw [← hq]
      _ = cmul (cmul q rsPrim) b ^^^ cmul (cmod a) b := cmul_xor_left _ _ _
      _ = cmul (cmul q b) rsPrim ^^^ cmul (cmod a) b := by
          rw [cmul_assoc, cmul_comm b rsPrim, ← cmul_assoc]
  obtain ⟨q2, hq2⟩ := cmod_spec (cmul (cmod a) b)
  symm
  apply cmod_unique _ (cmul q b ^^^ q2) _ (cmod_lt _)
  calc cmul a b = cmul (cmul q b) rsPrim ^^^ cmul (cmod a) b := key
    _ = cmul (cmul q b) rsPrim ^^^ (cmul q2 rsPrim ^^^ cmod (cmul (cmod a) b)) := by
        conv_lhs => rw [hq2]
    _ = cmul (cmul q b ^^^ q2) rsPrim ^^^ cmod (cmul (cmod a) b) := by
        rw [cmul_xor_left, Nat.xor_assoc]

theorem cmod_cmul_right (a b : Nat) : cmod (cmul a (cmod b)) = cmod (cmul a b) := by
  rw [cmul_comm (cmod b) a, cmod_cmul_left, cmul_comm a b]

/-! ## The field GF(2^8)

Bytes of the Python code are elements of this type.  Addition is XOR and
multiplication is carry-less multiplication reduced modulo `rsPrim` —
exactly the field that §4.1's log/antilog tables tabulate. -/

theorem xor_lt_256 (a b : Nat) (ha : a < 256) (hb : b < 256) : a ^^^ b < 256 := by
  have h : (256 : Nat) = 2 ^ 8 := by decide
  rw [h] at *
  exact Nat.xor_lt_two_pow ha hb

/-- A byte, viewed as an element of GF(2^8). -/
structure GF256 where
  val : Fin 256
  deriving DecidableEq

theorem GF256.ext {a b : GF256} (h : a.val = b.val) : a = b := by
  cases a; cases b; cases h; rfl

/-- The byte with value `n % 256`. -/
def GF256.ofNat (n : Nat) : GF256 := ⟨⟨n % 256, Nat.mod_lt _ (by omega)⟩⟩

instance : Zero GF256 := ⟨⟨0⟩⟩

instance : One GF256 := ⟨⟨1⟩⟩

instance : Add GF256 :=
  ⟨fun a b => ⟨⟨a.val.val ^^^ b.val.val, xor_lt_256 _ _ a.val.isLt b.val.isLt⟩⟩⟩

instance : Mul GF256 := ⟨fun a b => ⟨⟨cmod (cmul a.val.val b.val.val), cmod_lt _⟩⟩⟩

instance : Neg GF256 := ⟨fun a => a⟩

theorem GF256.add_def (a b : GF256) : (a + b).val.val = a.val.val ^^^ b.val.val := rfl

theorem GF256.mul_def (a b : GF256) : (a * b).val.val = cmod (cmul a.val.val b.val.val) := rfl

theorem GF256.zero_def : (0 : GF256).val.val = 0 := rfl

theorem GF256.one_def : (1 : GF256).val.val = 1 := rfl

theorem GF256.valEq {a b : GF256} (h : a.val.val = b.val.val) : a = b :=
  GF256.ext (Fin.ext h)

theorem GF256.gadd_assoc (a b c : GF256) : a + b + c = a + (b + c) :=
  GF256.valEq (by rw [GF256.add_def, GF256.add_def, GF256.add_def, GF256.add_def,
    Nat.xor_assoc])

theorem GF256.gzero_add (a : GF256) : 0 + a = a :=
  GF256.valEq (by rw [GF256.add_def, GF256.zero_def, Nat.zero_xor])

theorem GF256.gadd_zero (a : GF256) : a + 0 = a :=
  GF256.valEq (by rw [GF256.add_def, GF256.zero_def, Nat.xor_zero])

theorem GF256.gadd_comm (a b : GF256) : a + b = b + a :=
  GF256.valEq (by rw [GF256.add_def, GF256.add_def, Nat.xor_comm])

theorem GF256.gneg_add_cancel (a : GF256) : -a + a = 0 :=
  GF256.valEq (by
    show a.val.val ^^^ a.val.val = 0
    rw [Nat.xor_self])

theorem GF256.gmul_assoc (a b c : GF256) : a * b * c = a * (b * c) :=
  GF256.valEq (by
    rw [GF256.mul_def, GF256.mul_def, GF256.mul_def, GF256.mul_def,
      cmod_cmul_left, cmod_cmul_right, cmul_assoc])

theorem GF256.gone_mul (a : GF256) : 1 * a = a :=
  GF256.valEq (by
    rw [GF256.mul_def, GF256.one_def, cmul_one_left, cmod_small _ a.val.isLt])

theorem GF256.gmul_one (a : GF256) : a * 1 = a :=
  GF256.valEq (by
    rw [GF256.mul_def, GF256.one_def, cmul_one_right, cmod_small _ a.val.isLt])

theorem GF256.gmul_comm (a b : GF256) : a * b = b * a :=
  GF256.valEq (by rw [GF256.mul_def, GF256.mul_def, cmul_comm])

theorem GF256.gleft_distrib (a b c : GF256) : a * (b + c) = a * b + a * c :=
  GF256.valEq (by
    rw [GF256.mul_def, GF256.add_def, GF256.add_def, GF256.mul_def, GF256.mul_def,
      cmul_xor_right, cmod_xor])

theorem GF256.gright_distrib (a b c : GF256) : (a + b) * c = a * c + b * c :=
  GF256.valEq (by
    rw [GF256.mul_def, GF256.add_def, GF256.add_def, GF256.mul_def, GF256.mul_def,
      cmul_xor_left, cmod_xor])

theorem GF256.gzero_mul (a : GF256) : 0 * a = 0 :=
  GF256.valEq (by
    rw [GF256.mul_def, GF256.zero_def, cmul_zero_left, cmod_small _ (by omega)])

theorem GF256.gmul_zero (a : GF256) : a * 0 = 0 :=
  GF256.valEq (by
    rw [GF256.mul_def, GF256.zero_def, cmul_zero_right, cmod_small _ (by omega)])

instance : CommRing GF256 where
  nsmul := nsmulRec
  zsmul := zsmulRec
  add_assoc := GF256.gadd_assoc
  zero_add := GF256.gzero_add
  add_zero := GF256.gadd_zero
  add_comm := GF256.gadd_comm
  neg_add_cancel := GF256.gneg_add_cancel
  mul_assoc := GF256.gmul_assoc
  one_mul := GF256.gone_mul
  mul_one := GF256.gmul_one
  mul_comm := GF256.gmul_comm
  left_distrib := GF256.gleft_distrib
  right_distrib := GF256.gright_distrib
  zero_mul := GF256.gzero_mul
  mul_zero := GF256.gmul_zero

instance : Fintype GF256 :=
  Fintype.ofEquiv (Fin 256) ⟨fun v => ⟨v⟩, fun a => a.val, fun _ => rfl, fun _ => rfl⟩

/-- The generator `α = 2` of the multiplicative group of GF(2^8) (§4.1). -/
def gfAlpha : GF256 := ⟨⟨2, by omega⟩⟩

/-- The antilog table of §4.1: entry `i` is `α^i`.  Verified below by
`gfExpTable_step` (each entry is `α` times the previous one) and used for
the injectivity of `i ↦ α^i` on `[0, 255)` via `gfExpTable_nodup`. -/
def gfExpTable : List Nat := [
  1, 2, 4, 8, 16, 32, 64, 128, 29, 58, 116, 232, 205, 135, 19, 38,
  76, 152, 45, 90, 180, 117, 234, 201, 143, 3, 6, 12, 24, 48, 96, 192,
  157, 39, 78, 156, 37, 74, 148, 53, 106, 212, 181, 119, 238, 193, 159, 35,
  70, 140, 5, 10, 20, 40, 80, 160, 93, 186, 105, 210, 185, 111, 222, 161,
  95, 190, 97, 194, 153, 47, 94, 188, 101, 202, 137, 15, 30, 60, 120, 240,
  253, 231, 211, 187, 107, 214, 177, 127, 254, 225, 223, 163, 91, 182, 113, 226,
  217, 175, 67, 134, 17, 34, 68, 136, 13, 26, 52, 104, 208, 189, 103, 206,
  129, 31, 62, 124, 248, 237, 199, 147, 59, 118, 236, 197, 151, 51, 102, 204,
  133, 23, 46, 92, 184, 109, 218, 169, 79, 158, 33, 66, 132, 21, 42, 84,
  168, 77, 154, 41, 82, 164, 85, 170, 73, 146, 57, 114, 228, 213, 183, 115,
  230, 209, 191, 99, 198, 145, 63, 126, 252, 229, 215, 179, 123, 246, 241, 255,
  227, 219, 171, 75, 150, 49, 98, 196, 149, 55, 110, 220, 165, 87, 174, 65,
  130, 25, 50, 100, 200, 141, 7, 14, 28, 56, 112, 224, 221, 167, 83, 166,
  81, 162, 89, 178, 121, 242, 249, 239, 195, 155, 43, 86, 172, 69, 138, 9,
  18, 36, 72, 144, 61, 122, 244, 245, 247, 243, 251, 235, 203, 139, 11, 22,
  44, 88, 176, 125, 250, 233, 207, 131, 27, 54, 108, 216, 173, 71, 142]

/-- The multiplicative-inverse table of GF(2^8) (entry 0 is unused and 0),
as `reedsolo`'s `gf_inverse` tabulates it; verified below by the field axiom
`GF256.gmul_inv_cancel`. -/
def gfInvTable : List Nat := [
  0, 1, 142, 244, 71, 167, 122, 186, 173, 157, 221, 152, 61, 170, 93, 150,
  216, 114, 192, 88, 224, 62, 76, 102, 144, 222, 85, 128, 160, 131, 75, 42,
  108, 237, 57, 81, 96, 86, 44, 138, 112, 208, 31, 74, 38, 139, 51, 110,
  72, 137, 111, 46, 164, 195, 64, 94, 80, 34, 207, 169, 171, 12, 21, 225,
  54, 95, 248, 213, 146, 78, 166, 4, 48, 136, 43, 30, 22, 103, 69, 147,
  56, 35, 104, 140, 129, 26, 37, 97, 19, 193, 203, 99, 151, 14, 55, 65,
  36, 87, 202, 91, 185, 196, 23, 77, 82, 141, 239, 179, 32, 236, 47, 50,
  40, 209, 17, 217, 233, 251, 218, 121, 219, 119, 6, 187, 132, 205, 254, 252,
  27, 84, 161, 29, 124, 204, 228, 176, 73, 49, 39, 45, 83, 105, 2, 245,
  24, 223, 68, 79, 155, 188, 15, 92, 11, 220, 189, 148, 172, 9, 199, 162,
  28, 130, 159, 198, 52, 194, 70, 5, 206, 59, 13, 60, 156, 8, 190, 183,
  135, 229, 238, 107, 235, 242, 191, 175, 197, 100, 7, 123, 149, 154, 174, 182,
  18, 89, 165, 53, 101, 184, 163, 158, 210, 247, 98, 90, 133, 125, 168, 58,
  41, 113, 200, 246, 249, 67, 215, 214, 16, 115, 118, 120, 153, 10, 25, 145,
  20, 63, 230, 240, 134, 177, 226, 241, 250, 116, 243, 180, 109, 33, 178, 106,
  227, 231, 181, 234, 3, 143, 211, 201, 66, 212, 232, 117, 127, 255, 126, 253]

/-- The multiplicative inverse in GF(2^8), by table lookup; `0⁻¹ = 0`. -/
def ginv (a : GF256) : GF256 := GF256.ofNat (gfInvTable.getD a.val.val 0)

set_option maxRecDepth 4000 in
theorem GF256.gmul_inv_cancel : ∀ a : GF256, a ≠ 0 → a * ginv a = 1 := by decide

instance : Field GF256 where
  inv := ginv
  exists_pair_ne := ⟨0, 1, by decide⟩
  mul_inv_cancel := GF256.gmul_inv_cancel
  inv_zero := by decide
  nnqsmul := _
  qsmul := _

set_option maxRecDepth 4000 in
theorem gfExpTable_step : ∀ i : Fin 254,
    GF256.ofNat (gfExpTable.getD (i.val + 1) 0) =
      gfAlpha * GF256.ofNat (gfExpTable.getD i.val 0) := by decide

theorem alpha_pow_eq : ∀ i : Nat, i < 255 →
    gfAlpha ^ i = GF256.ofNat (gfExpTable.getD i 0) := by
  intro i
  induction i with
  | zero =>
    intro _
    rw [pow_zero]
    decide
  | succ i ih =>
    intro h
    rw [pow_succ, ih (by omega), mul_comm]
    exact (gfExpTable_step ⟨i, by omega⟩).symm

theorem alpha_orderOf : orderOf gfAlpha = 255 := by
  apply orderOf_eq_of_pow_and_pow_div_prime (by omega)
  · have h : gfAlpha ^ 255 = gfAlpha ^ 254 * gfAlpha := by rw [← pow_succ]
    rw [h, alpha_pow_eq 254 (by omega)]
    decide
  · intro p hp hdvd
    have hmem : p ∈ (255 : Nat).divisors := Nat.mem_divisors.mpr ⟨hdvd, by omega⟩
    have hdiv : (255 : Nat).divisors = {1, 3, 5, 15, 17, 51, 85, 255} := by decide
    rw [hdiv] at hmem
    simp only [Finset.mem_insert, Finset.mem_singleton] at hmem
    have hp1 : p ≠ 1 := hp.ne_one
    have hp15 : p ≠ 15 := by rintro rfl; exact absurd hp (by decide)
    have hp51 : p ≠ 51 := by rintro rfl; exact absurd hp (by decide)
    have hp85 : p ≠ 85 := by rintro rfl; exact absurd hp (by decide)
    have hp255 : p ≠ 255 := by rintro rfl; exact absurd hp (by decide)
    rcases hmem with rfl | rfl | rfl | rfl | rfl | rfl | rfl | rfl <;>
      first
        | exact absurd rfl hp1
        | exact absurd rfl hp15
        | exact absurd rfl hp51
        | exact absurd rfl hp85
        | exact absurd rfl hp255
        | (rw [show (255 : Nat) / 3 = 85 from rfl, alpha_pow_eq 85 (by omega)]; decide)
        | (rw [show (255 : Nat) / 5 = 51 from rfl, alpha_pow_eq 51 (by omega)]; decide)
        | (rw [show (255 : Nat) / 17 = 15 from rfl, alpha_pow_eq 15 (by omega)]; decide)

theorem alpha_pow_inj (i j : Nat) (hi : i < 255) (hj : j < 255)
    (h : gfAlpha ^ i = gfAlpha ^ j) : i = j := by
  have := pow_injOn_Iio_orderOf (x := gfAlpha)
  rw [alpha_orderOf] at this
  exact this (Set.mem_Iio.mpr hi) (Set.mem_Iio.mpr hj) h

/-! ## Polynomials over GF(2^8) as coefficient lists

Coefficient lists are highest-degree-first, the convention of §4.1's codec
(and of `reedsolo`).  `polyAdd` aligns the low-order ends, `polyMul` is
convolution, `genPoly nsym` is the Reed–Solomon generator polynomial
`∏ i < nsym, (x - α^i)` (subtraction is addition in characteristic 2), and
`polyModF` is synthetic division keeping only the remainder. -/

/-- Evaluate a highest-degree-first coefficient list by Horner's rule. -/
def polyEval (p : List GF256) (x : GF256) : GF256 :=
  p.foldl (fun acc c => acc * x + c) 0

/-- Sum of two coefficient lists, aligned at the low-order end. -/
def polyAdd (a b : List GF256) : List GF256 :=
  List.zipWith (· + ·)
    (List.replicate (max a.length b.length - a.length) 0 ++ a)
    (List.replicate (max a.length b.length - b.length) 0 ++ b)

/-- Multiply every coefficient by a scalar. -/
def polyScale (c : GF256) (q : List GF256) : List GF256 := q.map (c * ·)

/-- Product (convolution) of two coefficient lists. -/
def polyMul : List GF256 → List GF256 → List GF256
  | [], _ => []
  | c :: p, q => polyAdd (polyScale c q ++ List.replicate p.length 0) (polyMul p q)

/-- The Reed–Solomon generator polynomial `∏ i < nsym, (x - α^i)` of §4.1,
highest degree first. -/
def genPoly : Nat → List GF256
  | 0 => [1]
  | n + 1 => polyMul (genPoly n) [1, gfAlpha ^ n]

/-- Synthetic division by the monic polynomial `1 :: gtail`, keeping the
remainder only, with explicit fuel (one unit per cancelled leading
coefficient). -/
def polyModF (gtail : List GF256) : Nat → List GF256 → List GF256
  | 0, p => p
  | _ + 1, [] => []
  | fuel + 1, c :: rest =>
    if rest.length < gtail.length then c :: rest
    else
      polyModF gtail fuel
        (List.zipWith (· + ·) (polyScale c gtail) (rest.take gtail.length) ++
          rest.drop gtail.length)

/-- Modelled from the spec (§4.2, encode contract; the `reedsolo` library
that `erasure.py` calls is not part of this repository): the systematic
Reed–Solomon encoding of one column.  The `k` information symbols are
followed by the `nsym` check symbols, the remainder of `msg · x^nsym`
modulo the generator polynomial. -/
def rsEncodeMsg (msg : List GF256) (nsym : Nat) : List GF256 :=
  msg ++ polyModF (genPoly nsym).tail msg.length (msg ++ List.replicate nsym 0)

theorem GF256.add_self (a : GF256) : a + a = 0 :=
  GF256.valEq (by rw [GF256.add_def, Nat.xor_self]; rfl)

theorem polyEval_nil (x : GF256) : polyEval [] x = 0 := rfl

theorem polyEval_foldl (p : List GF256) (x : GF256) : ∀ z : GF256,
    p.foldl (fun acc c => acc * x + c) z = z * x ^ p.length + polyEval p x := by
  induction p with
  | nil => intro z; simp [polyEval]
  | cons c t ih =>
    intro z
    show t.foldl _ (z * x + c) = _
    rw [ih (z * x + c)]
    have h0 : polyEval (c :: t) x = (0 * x + c) * x ^ t.length + polyEval t x := by
      show t.foldl _ (0 * x + c) = _
      rw [ih (0 * x + c)]
    rw [h0]
    simp only [List.length_cons]
    ring

theorem polyEval_cons (c : GF256) (t : List GF256) (x : GF256) :
    polyEval (c :: t) x = c * x ^ t.length + polyEval t x := by
  show t.foldl _ (0 * x + c) = _
  rw [polyEval_foldl]
  ring

theorem polyEval_append (a b : List GF256) (x : GF256) :
    polyEval (a ++ b) x = polyEval a x * x ^ b.length + polyEval b x := by
  show (a ++ b).foldl _ 0 = _
  rw [List.foldl_append, polyEval_foldl]
  rfl

theorem polyEval_replicate_zero (n : Nat) (x : GF256) :
    polyEval (List.replicate n 0) x = 0 := by
  induction n with
  | zero => rfl
  | succ n ih => rw [List.replicate_succ, polyEval_cons, ih]; ring

theorem polyEval_zipWith_add (a b : List GF256) (x : GF256) (h : a.length = b.length) :
    polyEval (List.zipWith (· + ·) a b) x = polyEval a x + polyEval b x := by
  induction a generalizing b with
  | nil =>
    cases b with
    | nil => simp [polyEval]
    | cons b0 bt => simp at h
  | cons a0 at' ih =>
    cases b with
    | nil => simp at h
    | cons b0 bt =>
      simp only [List.length_cons, Nat.add_right_cancel_iff] at h
      show polyEval ((a0 + b0) :: List.zipWith (· + ·) at' bt) x = _
      rw [polyEval_cons, polyEval_cons, polyEval_cons, ih bt h,
        List.length_zipWith, h, Nat.min_self]
      ring

theorem polyEval_scale (c : GF256) (q : List GF256) (x : GF256) :
    polyEval (polyScale c q) x = c * polyEval q x := by
  induction q with
  | nil => simp [polyScale, polyEval]
  | cons q0 t ih =>
    show polyEval ((c * q0) :: polyScale c t) x = _
    rw [polyEval_cons, polyEval_cons, ih]
    show c * q0 * x ^ (t.map _).length + _ = _
    rw [List.length_map]
    ring

theorem polyEval_pad (n : Nat) (a : List GF256) (x : GF256) :
    polyEval (List.replicate n 0 ++ a) x = polyEval a x := by
  rw [polyEval_append, polyEval_replicate_zero]
  ring

theorem polyEval_polyAdd (a b : List GF256) (x : GF256) :
    polyEval (polyAdd a b) x = polyEval a x + polyEval b x := by
  have ha : (List.replicate (max a.length b.length - a.length) 0 ++ a).length =
      max a.length b.length := by
    simp only [List.length_append, List.length_replicate]
    omega
  have hb : (List.replicate (max a.length b.length - b.length) 0 ++ b).length =
      max a.length b.length := by
    simp only [List.length_append, List.length_replicate]
    omega
  rw [polyAdd, polyEval_zipWith_add _ _ _ (by rw [ha, hb]), polyEval_pad, polyEval_pad]

theorem polyAdd_length (a b : List GF256) :
    (polyAdd a b).length = max a.length b.length := by
  simp only [polyAdd, List.length_zipWith, List.length_append, List.length_replicate]
  omega

theorem polyEval_polyMul (p q : List GF256) (x : GF256) :
    polyEval (polyMul p q) x = polyEval p x * polyEval q x := by
  induction p with
  | nil => simp [polyMul, polyEval]
  | cons c t ih =>
    show polyEval (polyAdd (polyScale c q ++ List.replicate t.length 0) (polyMul t q)) x = _
    rw [polyEval_polyAdd, polyEval_append, polyEval_scale, polyEval_replicate_zero,
      polyEval_cons, ih, List.length_replicate]
    ring

theorem polyMul_length (p q : List GF256) (hp : p ≠ []) :
    (polyMul p q).length = p.length + q.length - 1 := by
  induction p with
  | nil => exact absurd rfl hp
  | cons c t ih =>
    show (polyAdd (polyScale c q ++ List.replicate t.length 0) (polyMul t q)).length = _
    rw [polyAdd_length]
    by_cases ht : t = []
    · subst ht
      simp [polyMul, polyScale, List.length_append]
    · rw [ih ht]
      have h1 : 1 ≤ t.length := List.length_pos.mpr ht
      simp only [List.length_append, List.length_map, List.length_replicate, polyScale,
        List.length_cons]
      omega

theorem GF256.eq_of_add_eq_zero {a b : GF256} (h : a + b = 0) : a = b := by
  have h2 : a + b + b = b := by rw [h, zero_add]
  rwa [add_assoc, GF256.add_self, add_zero] at h2

theorem genPoly_length : ∀ n : Nat, (genPoly n).length = n + 1 := by
  intro n
  induction n with
  | zero => rfl
  | succ n ih =>
    show (polyMul (genPoly n) [1, gfAlpha ^ n]).length = n + 2
    have hne : genPoly n ≠ [] := by
      intro h
      rw [h] at ih
      simp at ih
    rw [polyMul_length _ _ hne, ih]
    simp only [List.length_cons, List.length_nil]
    omega

theorem genPoly_one_cons : ∀ n : Nat, ∃ t, genPoly n = 1 :: t := by
  intro n
  induction n with
  | zero => exact ⟨[], rfl⟩
  | succ n ih =>
    obtain ⟨t, ht⟩ := ih
    have hlen := genPoly_length n
    have htlen : t.length = n := by
      rw [ht] at hlen
      simpa using hlen
    show ∃ t', polyMul (genPoly n) [1, gfAlpha ^ n] = 1 :: t'
    rw [ht]
    show ∃ t', polyAdd (polyScale 1 [1, gfAlpha ^ n] ++ List.replicate t.length 0)
        (polyMul t [1, gfAlpha ^ n]) = 1 :: t'
    have hBlen : (polyMul t [1, gfAlpha ^ n]).length ≤ t.length + 1 := by
      by_cases htnil : t = []
      · subst htnil
        simp [polyMul]
      · rw [polyMul_length t _ htnil]
        simp
    have hA : polyScale 1 [1, gfAlpha ^ n] ++ List.replicate t.length 0 =
        1 * 1 :: (1 * gfAlpha ^ n :: List.replicate t.length 0) := rfl
    rw [polyAdd, hA]
    have hAlen : (1 * 1 :: (1 * gfAlpha ^ n :: List.replicate t.length 0)).length =
        t.length + 2 := by simp
    rw [hAlen]
    set B := polyMul t [1, gfAlpha ^ n] with hB
    have hmax : max (t.length + 2) B.length = t.length + 2 := by omega
    rw [hmax]
    have hpadA : t.length + 2 - (t.length + 2) = 0 := by omega
    rw [hpadA, List.replicate_zero, List.nil_append]
    obtain ⟨m, hm⟩ : ∃ m, t.length + 2 - B.length = m + 1 := ⟨t.length + 1 - B.length, by omega⟩
    rw [hm, List.replicate_succ, List.cons_append]
    refine ⟨List.zipWith (· + ·) (1 * gfAlpha ^ n :: List.replicate t.length 0)
      (List.replicate m 0 ++ B), ?_⟩
    show (1 * 1 + 0) :: _ = 1 :: _
    rw [one_mul, add_zero]

theorem genPoly_tail_length (n : Nat) : (genPoly n).tail.length = n := by
  have := genPoly_length n
  simp [List.length_tail, this]

theorem genPoly_root (n j : Nat) (hj : j < n) :
    polyEval (genPoly n) (gfAlpha ^ j) = 0 := by
  induction n with
  | zero => omega
  | succ n ih =>
    show polyEval (polyMul (genPoly n) [1, gfAlpha ^ n]) _ = 0
    rw [polyEval_polyMul]
    by_cases h : j < n
    · rw [ih h, zero_mul]
    · have hjn : j = n := by omega
      subst hjn
      have : polyEval [1, gfAlpha ^ j] (gfAlpha ^ j) = 0 := by
        rw [polyEval_cons, polyEval_cons, polyEval_nil]
        simp [GF256.add_self]
      rw [this, mul_zero]

theorem genPoly_tail_eval (n j : Nat) (hj : j < n) :
    polyEval (genPoly n).tail (gfAlpha ^ j) =
      (gfAlpha ^ j) ^ (genPoly n).tail.length := by
  obtain ⟨t, ht⟩ := genPoly_one_cons n
  have hroot := genPoly_root n j hj
  rw [ht] at hroot ⊢
  rw [polyEval_cons, one_mul] at hroot
  show polyEval t _ = _
  exact (GF256.eq_of_add_eq_zero hroot).symm

theorem polyModF_length (gtail : List GF256) :
    ∀ (f : Nat) (p : List GF256), gtail.length ≤ p.length →
      p.length ≤ f + gtail.length → (polyModF gtail f p).length = gtail.length := by
  intro f
  induction f with
  | zero =>
    intro p h1 h2
    show p.length = _
    omega
  | succ f ih =>
    intro p h1 h2
    match p with
    | [] =>
      show ([] : List GF256).length = _
      simp only [List.length_nil] at h1 ⊢
      omega
    | c :: rest =>
      show (if rest.length < gtail.length then c :: rest else _).length = _
      by_cases hr : rest.length < gtail.length
      · rw [if_pos hr]
        simp at h1 ⊢
        omega
      · rw [if_neg hr]
        push_neg at hr
        have hzip : (List.zipWith (· + ·) (polyScale c gtail) (rest.take gtail.length) ++
            rest.drop gtail.length).length = rest.length := by
          simp [List.length_zipWith, polyScale, List.length_take, List.length_drop]
          omega
        rw [ih _ (by rw [hzip]; exact hr) (by rw [hzip]; simp at h2; omega)]

theorem polyModF_eval (gtail : List GF256) (x : GF256)
    (hg : polyEval gtail x = x ^ gtail.length) :
    ∀ (f : Nat) (p : List GF256), p.length ≤ f + gtail.length →
      polyEval (polyModF gtail f p) x = polyEval p x := by
  intro f
  induction f with
  | zero => intro p _; rfl
  | succ f ih =>
    intro p hlen
    match p with
    | [] => rfl
    | c :: rest =>
      show polyEval (if rest.length < gtail.length then c :: rest else _) x = _
      by_cases hr : rest.length < gtail.length
      · rw [if_pos hr]
      · rw [if_neg hr]
        push_neg at hr
        have hzip : (List.zipWith (· + ·) (polyScale c gtail) (rest.take gtail.length) ++
            rest.drop gtail.length).length = rest.length := by
          simp [List.length_zipWith, polyScale, List.length_take, List.length_drop]
          omega
        rw [ih _ (by rw [hzip]; simp at hlen; omega)]
        rw [polyEval_append, polyEval_zipWith_add _ _ _ (by
          simp [polyScale, List.length_take]
          omega)]
        rw [polyEval_scale, hg]
        have htd : rest.take gtail.length ++ rest.drop gtail.length = rest :=
          List.take_append_drop _ _
        have hrest : polyEval rest x =
            polyEval (rest.take gtail.length) x * x ^ (rest.drop gtail.length).length +
              polyEval (rest.drop gtail.length) x := by
          conv_lhs => rw [← htd]
          rw [polyEval_append]
        rw [polyEval_cons, hrest]
        have hdrop : (rest.drop gtail.length).length = rest.length - gtail.length := by
          simp [List.length_drop]
        rw [hdrop]
        have hpow : x ^ gtail.length * x ^ (rest.length - gtail.length) = x ^ rest.length := by
          rw [← pow_add]
          congr 1
          omega
        calc (c * x ^ gtail.length + polyEval (rest.take gtail.length) x) *
              x ^ (rest.length - gtail.length) + polyEval (rest.drop gtail.length) x
            = c * (x ^ gtail.length * x ^ (rest.length - gtail.length)) +
              (polyEval (rest.take gtail.length) x * x ^ (rest.length - gtail.length) +
                polyEval (rest.drop gtail.length) x) := by ring
          _ = c * x ^ rest.length +
              (polyEval (rest.take gtail.length) x * x ^ (rest.length - gtail.length) +
                polyEval (rest.drop gtail.length) x) := by rw [hpow]

theorem rsEncodeMsg_length (msg : List GF256) (nsym : Nat) :
    (rsEncodeMsg msg nsym).length = msg.length + nsym := by
  show (msg ++ _).length = _
  rw [List.length_append, polyModF_length]
  · rw [genPoly_tail_length]
  · rw [genPoly_tail_length]
    simp
  · rw [genPoly_tail_length]
    simp

theorem rsEncodeMsg_take (msg : List GF256) (nsym : Nat) :
    (rsEncodeMsg msg nsym).take msg.length = msg :=
  List.take_left _ _

theorem rsEncodeMsg_syndrome (msg : List GF256) (nsym j : Nat) (hj : j < nsym) :
    polyEval (rsEncodeMsg msg nsym) (gfAlpha ^ j) = 0 := by
  have hg := genPoly_tail_eval nsym j hj
  have hrem := polyModF_eval (genPoly nsym).tail (gfAlpha ^ j) hg msg.length
    (msg ++ List.replicate nsym 0)
    (by rw [genPoly_tail_length]; simp)
  have hremlen : (polyModF (genPoly nsym).tail msg.length
      (msg ++ List.replicate nsym 0)).length = nsym := by
    rw [polyModF_length _ _ _ (by rw [genPoly_tail_length]; simp)
      (by rw [genPoly_tail_length]; simp), genPoly_tail_length]
  show polyEval (msg ++ _) _ = 0
  rw [polyEval_append, hremlen, hrem, polyEval_append, polyEval_replicate_zero,
    List.length_replicate, add_zero]
  exact GF256.add_self _

theorem polyEval_eq_sum_range (p : List GF256) (x : GF256) :
    polyEval p x = ∑ i ∈ Finset.range p.length, p.getD i 0 * x ^ (p.length - 1 - i) := by
  induction p with
  | nil => simp [polyEval]
  | cons c t ih =>
    rw [polyEval_cons, ih]
    simp only [List.length_cons]
    have hsum : ∑ i ∈ Finset.range t.length,
        (c :: t).getD (i + 1) 0 * x ^ (t.length + 1 - 1 - (i + 1)) =
        ∑ i ∈ Finset.range t.length, t.getD i 0 * x ^ (t.length - 1 - i) := by
      apply Finset.sum_congr rfl
      intro i _
      have h1 : (c :: t).getD (i + 1) 0 = t.getD i 0 := rfl
      have h2 : t.length + 1 - 1 - (i + 1) = t.length - 1 - i := by omega
      rw [h1, h2]
    rw [Finset.sum_range_succ', hsum]
    have hhead : (c :: t).getD 0 0 * x ^ (t.length + 1 - 1 - 0) = c * x ^ t.length := by
      simp
    rw [hhead, add_comm]

theorem polyEval_eq_sum_getD (p : List GF256) (x : GF256) (n : Nat) (h : p.length = n) :
    polyEval p x = ∑ i : Fin n, p.getD i.val 0 * x ^ (n - 1 - i.val) := by
  subst h
  rw [polyEval_eq_sum_range]
  exact (Fin.sum_univ_eq_sum_range
    (fun i => p.getD i 0 * x ^ (p.length - 1 - i)) p.length).symm

/-- Two systematic Reed–Solomon codewords that agree on at least `k` of
their `k + nsym` coordinates are identical, and so are their messages: the
MDS distance property of the code, by the BCH bound (a Vandermonde
determinant over the distinct points `α^(n-1-i)`). -/
theorem rsEncodeMsg_inj_on_agreement
    (k nsym : Nat) (hk : 1 ≤ k) (hn : k + nsym ≤ 255)
    (m m' : List GF256) (hm : m.length = k) (hm' : m'.length = k)
    (T : Finset (Fin (k + nsym))) (hT : k ≤ T.card)
    (hagree : ∀ i : Fin (k + nsym), i ∈ T →
      (rsEncodeMsg m nsym).getD i.val 0 = (rsEncodeMsg m' nsym).getD i.val 0) :
    m = m' := by
  set C := rsEncodeMsg m nsym with hC
  set C' := rsEncodeMsg m' nsym with hC'
  have hClen : C.length = k + nsym := by rw [hC, rsEncodeMsg_length, hm]
  have hC'len : C'.length = k + nsym := by rw [hC', rsEncodeMsg_length, hm']
  set D : Fin (k + nsym) → GF256 := fun i => C.getD i.val 0 + C'.getD i.val 0 with hD
  have hsynd : ∀ j : Nat, j < nsym →
      ∑ i : Fin (k + nsym), D i * (gfAlpha ^ (k + nsym - 1 - i.val)) ^ j = 0 := by
    intro j hj
    have h1 : ∑ i : Fin (k + nsym),
        C.getD i.val 0 * (gfAlpha ^ j) ^ (k + nsym - 1 - i.val) = 0 := by
      rw [← polyEval_eq_sum_getD C _ _ hClen]
      exact rsEncodeMsg_syndrome m nsym j hj
    have h2 : ∑ i : Fin (k + nsym),
        C'.getD i.val 0 * (gfAlpha ^ j) ^ (k + nsym - 1 - i.val) = 0 := by
      rw [← polyEval_eq_sum_getD C' _ _ hC'len]
      exact rsEncodeMsg_syndrome m' nsym j hj
    calc ∑ i : Fin (k + nsym), D i * (gfAlpha ^ (k + nsym - 1 - i.val)) ^ j
        = ∑ i : Fin (k + nsym), (C.getD i.val 0 * (gfAlpha ^ j) ^ (k + nsym - 1 - i.val) +
            C'.getD i.val 0 * (gfAlpha ^ j) ^ (k + nsym - 1 - i.val)) := by
          apply Finset.sum_congr rfl
          intro i _
          show (C.getD i.val 0 + C'.getD i.val 0) * _ = _
          rw [pow_right_comm]
          ring
      _ = 0 := by rw [Finset.sum_add_distrib, h1, h2, add_zero]
  set S : Finset (Fin (k + nsym)) := Finset.univ.filter (fun i => D i ≠ 0) with hS
  have hST : Disjoint S T := by
    rw [Finset.disjoint_left]
    intro i hiS hiT
    have hD0 : D i = 0 := by
      show C.getD i.val 0 + C'.getD i.val 0 = 0
      rw [hagree i hiT]
      exact GF256.add_self _
    rw [hS] at hiS
    exact (Finset.mem_filter.mp hiS).2 hD0
  have hScard : S.card ≤ nsym := by
    have h1 : S.card + T.card ≤ k + nsym := by
      rw [← Finset.card_union_of_disjoint hST]
      calc (S ∪ T).card ≤ (Finset.univ : Finset (Fin (k + nsym))).card :=
            Finset.card_le_card (Finset.subset_univ _)
        _ = k + nsym := by rw [Finset.card_univ, Fintype.card_fin]
    omega
  have hDzero : ∀ i : Fin (k + nsym), D i = 0 := by
    have e := S.orderIsoOfFin rfl
    set β : Fin S.card → GF256 :=
      fun r => gfAlpha ^ (k + nsym - 1 - ((e r : Fin (k + nsym)) : Nat)) with hβ
    have hβinj : Function.Injective β := by
      intro r1 r2 hr
      rw [hβ] at hr
      have h1 := (e r1 : Fin (k + nsym)).isLt
      have h2 := (e r2 : Fin (k + nsym)).isLt
      have hexp := alpha_pow_inj _ _ (by omega) (by omega) hr
      have hval : ((e r1 : Fin (k + nsym)) : Nat) = ((e r2 : Fin (k + nsym)) : Nat) := by
        omega
      exact e.injective (Subtype.ext (Fin.ext hval))
    set v : Fin S.card → GF256 := fun r => D (e r : Fin (k + nsym)) with hv
    set A : Matrix (Fin S.card) (Fin S.card) GF256 := (Matrix.vandermonde β).transpose
      with hA
    have hmul : A.mulVec v = 0 := by
      funext j
      show ∑ r : Fin S.card, A j r * v r = 0
      have hstep : ∑ r : Fin S.card, A j r * v r =
          ∑ i ∈ S, D i * (gfAlpha ^ (k + nsym - 1 - i.val)) ^ j.val := by
        rw [← Finset.sum_coe_sort S
          (fun i => D i * (gfAlpha ^ (k + nsym - 1 - (i : Fin (k + nsym)).val)) ^ j.val)]
        apply Fintype.sum_equiv e.toEquiv
        intro r
        show β r ^ j.val * D (e r : Fin (k + nsym)) =
          D (e r : Fin (k + nsym)) *
            (gfAlpha ^ (k + nsym - 1 - ((e r : Fin (k + nsym)) : Nat))) ^ j.val
        rw [mul_comm]
      rw [hstep]
      have hfull : ∑ i ∈ S, D i * (gfAlpha ^ (k + nsym - 1 - i.val)) ^ j.val =
          ∑ i : Fin (k + nsym), D i * (gfAlpha ^ (k + nsym - 1 - i.val)) ^ j.val := by
        apply Finset.sum_subset (Finset.subset_univ S)
        intro i _ hiS
        rw [hS] at hiS
        simp only [Finset.mem_filter, Finset.mem_univ, true_and, not_not] at hiS
        rw [hiS, zero_mul]
      rw [hfull]
      have hjlt : j.val < nsym := by
        have := j.isLt
        omega
      exact hsynd j.val hjlt
    have hdet : A.det ≠ 0 := by
      rw [hA, Matrix.det_transpose, Matrix.det_vandermonde]
      rw [Finset.prod_ne_zero_iff]
      intro i _
      rw [Finset.prod_ne_zero_iff]
      intro j hj
      rw [Finset.mem_Ioi] at hj
      rw [sub_ne_zero]
      exact fun hc => absurd (hβinj hc) (by intro h; rw [h] at hj; exact lt_irrefl _ hj)
    have hv0 : v = 0 := Matrix.eq_zero_of_mulVec_eq_zero hdet hmul
    intro i
    by_cases hiS : i ∈ S
    · have := congrFun hv0 (e.symm ⟨i, hiS⟩)
      rw [hv] at this
      simp only [OrderIso.apply_symm_apply] at this
      exact this
    · rw [hS] at hiS
      simp only [Finset.mem_filter, Finset.mem_univ, true_and, not_not] at hiS
      exact hiS
  have hCC' : C = C' := by
    apply List.ext_get (by rw [hClen, hC'len])
    intro i h1 h2
    have hi : i < k + nsym := by rw [← hClen]; exact h1
    have hDi := hDzero ⟨i, hi⟩
    have hsum : C.getD i 0 + C'.getD i 0 = 0 := hDi
    have heq := GF256.eq_of_add_eq_zero hsum
    rw [List.getD_eq_getElem _ _ h1, List.getD_eq_getElem _ _ h2] at heq
    exact heq
  have h1 : C.take k = m := by rw [hC, ← hm]; exact rsEncodeMsg_take m nsym
  have h2 : C'.take k = m' := by rw [hC', ← hm']; exact rsEncodeMsg_take m' nsym
  rw [← h1, ← h2, hCC']

/-! ## `erasure.py`: Reed–Solomon erasure coding -/

deriving instance DecidableEq for Except

/-- `RSParams` of `erasure.py`. -/
structure RSParams where
  data_shards : Nat
  parity_shards : Nat
  total_shards : Nat
  shard_size : Nat
  deriving DecidableEq

/-- `ReconstructionResult` of `erasure.py`. -/
structure ReconstructionResult where
  success : Bool
  data : Option (List GF256)
  original_size : Nat
  shards_used : Nat
  shards_available : Nat
  shards_required : Nat
  error : Option String := none
  corrected_errors : Nat := 0
  deriving DecidableEq

/-- `padded_size` of `encode_data`: `math.ceil(len / k) * k`. -/
def padSize (len k : Nat) : Nat := ((len + k - 1) / k) * k

/-- `shard_size` of `encode_data`: `padded_size // k`. -/
def shardSize (len k : Nat) : Nat := padSize len k / k

/-- `padded_data` of `encode_data`: the data right-padded with zero bytes
(`data.ljust(padded_size, b"\x00")`). -/
def paddedData (data : List GF256) (k : Nat) : List GF256 :=
  data ++ List.replicate (padSize data.length k - data.length) 0

/-- The `k` data shards of `encode_data`: contiguous slices of the padded
data. -/
def dataShardsOf (data : List GF256) (k : Nat) : List (List GF256) :=
  (List.range k).map fun i =>
    ((paddedData data k).drop (i * shardSize data.length k)).take (shardSize data.length k)

/-- One encoded column of `encode_data`: the byte at position `p` of every
data shard, systematically RS-encoded (`rs.encode(data_bytes)`). -/
def encodeColumn (data : List GF256) (k n p : Nat) : List GF256 :=
  rsEncodeMsg ((dataShardsOf data k).map fun shard => shard.getD p 0) (n - k)

/-- The `n - k` parity shards of `encode_data`: byte `p` of parity shard
`j` is entry `k + j` of encoded column `p`. -/
def parityShardsOf (data : List GF256) (k n : Nat) : List (List GF256) :=
  (List.range (n - k)).map fun j =>
    ((List.range (shardSize data.length k)).map fun p => encodeColumn data k n p).map
      fun col => col.getD (k + j) 0

/-- `encode_data` of `erasure.py`: validate `(k, n)`, pad the data with zero
bytes to the next multiple of `k`, slice it into `k` contiguous data shards,
and fill the `n - k` parity shards column by column from the systematic RS
encoding of each column.  A raised `ValueError` is an `Except.error`. -/
def encode_data (data : List GF256) (k n : Nat) :
    Except String (List (List GF256) × RSParams) :=
  if n ≤ k then
    .error s!"Total shards (n={n}) must be greater than data shards (k={k})"
  else if k < 1 then
    .error "Must have at least 1 data shard"
  else
    .ok (dataShardsOf data k ++ parityShardsOf data k n,
      { data_shards := k, parity_shards := n - k, total_shards := n,
        shard_size := shardSize data.length k })

/-- The shard dictionary `reconstruct_data` builds from
`zip(shard_indices, shards)`: Python-dict insertion, a later binding of the
same index overwriting an earlier one; `None` shards are skipped. -/
def buildShardMap (shard_indices : List Nat) (shards : List (Option (List GF256))) :
    Nat → Option (List GF256) :=
  (List.zip shard_indices shards).foldl
    (fun m p =>
      match p.2 with
      | some d => fun i => if i = p.1 then some d else m i
      | none => m)
    (fun _ => none)

/-- The fast-path assembly of `reconstruct_data` (`erasure.py`, the
`have_all_data_shards` branch): concatenate the data shards in index order
and truncate to the original size. -/
def fastPathData (shardMap : Nat → Option (List GF256)) (k original_size : Nat) :
    List GF256 :=
  (((List.range k).map fun i => (shardMap i).getD []).flatten).take original_size

/-- Every byte value, as the candidates for one erased information symbol. -/
def allBytes : List GF256 := (List.range 256).map GF256.ofNat

/-- All candidate information vectors for one column: position `i` is fixed
to the codeword byte when shard `i` is present and ranges over all 256 byte
values when it is erased. -/
def candidateMsgs (codeword : List GF256) (erased : Nat → Bool) : Nat → List (List GF256)
  | 0 => [[]]
  | i + 1 =>
    (candidateMsgs codeword erased i).flatMap fun m =>
      (if erased i then allBytes else [codeword.getD i 0]).map fun b => m ++ [b]

/-- Modelled from the spec (§4.2, decode contract; the `reedsolo` library
that `erasure.py` calls for `rs.decode` is not part of this repository):
erasure-only Reed–Solomon decoding of one codeword column.  Non-erased
symbols are taken as correct; the information symbols are found by solving
for an assignment of the erased information positions whose systematic
re-encoding agrees with the codeword at every non-erased position.  More
than `n - k` erasures, or an unsatisfiable column, is a decode failure
(`ReedSolomonError`). -/
def rsDecodeColumn (codeword : List GF256) (erasePos : List Nat) (k n : Nat) :
    Except String (List GF256) :=
  if n - k < erasePos.length then .error "Too many erasures to correct"
  else
    match (candidateMsgs codeword (fun i => erasePos.contains i) k).find?
        (fun m => (List.range n).all fun i =>
          erasePos.contains i ||
            decide ((rsEncodeMsg m (n - k)).getD i 0 = codeword.getD i 0)) with
    | some m => .ok m
    | none => .error "Could not locate error"

/-- One erasure-path column of `reconstruct_data`: byte `byte_pos` of each
present shard, a zero placeholder plus an erasure mark for each absent
index.  A present shard with fewer than `byte_pos + 1` bytes raises
`IndexError` (caught by the surrounding `except`). -/
def erasureColumn (shardMap : Nat → Option (List GF256)) (n byte_pos : Nat) :
    Except String (List GF256 × List Nat) :=
  if (List.range n).all (fun idx =>
      match shardMap idx with
      | some bytes => decide (byte_pos < bytes.length)
      | none => true) then
    .ok ((List.range n).map fun idx =>
          match shardMap idx with
          | some bytes => bytes.getD byte_pos 0
          | none => 0,
        (List.range n).filter fun idx => (shardMap idx).isNone)
  else
    .error "index out of range"

/-- The erasure-path column loop of `reconstruct_data`: decode every byte
position in order, collecting the decoded information columns and the
running corrected-errata count; the first failure aborts. -/
def erasureColumnsGo (shardMap : Nat → Option (List GF256)) (k n : Nat) :
    List Nat → Except String (List (List GF256) × Nat)
  | [] => .ok ([], 0)
  | p :: rest =>
    match erasureColumn shardMap n p with
    | .error e => .error e
    | .ok (codeword, erasure_positions) =>
      match rsDecodeColumn codeword erasure_positions k n with
      | .error e => .error ("RS decode failed at byte " ++ toString p ++ ": " ++ e)
      | .ok decoded =>
        match erasureColumnsGo shardMap k n rest with
        | .error e => .error e
        | .ok (cols, corr) => .ok (decoded :: cols, erasure_positions.length + corr)

/-- The erasure path of `reconstruct_data` (`erasure.py`, after the fast
path): decode column by column, transpose the decoded columns into the `k`
reconstructed data shards, concatenate and truncate.  Both the inner
`ReedSolomonError` handler and the outer `except` produce a failing
`ReconstructionResult`. -/
def erasurePathResult (shardMap : Nat → Option (List GF256)) (params : RSParams)
    (original_size available_count : Nat) : ReconstructionResult :=
  let k := params.data_shards
  let n := params.total_shards
  match erasureColumnsGo shardMap k n (List.range params.shard_size) with
  | .error e =>
    { success := false, data := none, original_size := original_size,
      shards_used := 0, shards_available := available_count,
      shards_required := k, error := some e }
  | .ok (columns, corrected_count) =>
    let reconstructed_data_shards :=
      (List.range k).map fun i => columns.map fun col => col.getD i 0
    { success := true,
      data := some (reconstructed_data_shards.flatten.take original_size),
      original_size := original_size, shards_used := available_count,
      shards_available := available_count, shards_required := k,
      corrected_errors := corrected_count }

/-- `reconstruct_data` of `erasure.py`. -/
def reconstruct_data (shards : List (Option (List GF256))) (shard_indices : List Nat)
    (params : RSParams) (original_size : Nat) : ReconstructionResult :=
  let k := params.data_shards
  let available_count := (shards.filter Option.isSome).length
  if available_count < k then
    { success := false, data := none, original_size := original_size,
      shards_used := 0, shards_available := available_count,
      shards_required := k,
      error := some s!"Need {k} shards, only {available_count} available" }
  else
    let shardMap := buildShardMap shard_indices shards
    if (List.range k).all fun i => (shardMap i).isSome then
      { success := true, data := some (fastPathData shardMap k original_size),
        original_size := original_size, shards_used := k,
        shards_available := available_count, shards_required := k,
        corrected_errors := 0 }
    else
      erasurePathResult shardMap params original_size available_count

/-- The analysis record of `analyze_reconstruction`. -/
structure ReconstructionAnalysis where
  feasible : Bool
  available_shards : Nat
  required_shards : Nat
  total_shards : Nat
  missing_shards : List Nat
  missing_count : Nat
  redundancy_margin : Int
  fast_path : Bool
  message : String
  deriving DecidableEq

/-- `analyze_reconstruction` of `erasure.py`: feasibility is judged from
the raw length of `available_indices` (duplicates included). -/
def analyze_reconstruction (available_indices : List Nat) (k n : Nat) :
    ReconstructionAnalysis :=
  let available_count := available_indices.length
  let missing_indices := (List.range n).filter fun i => ¬ available_indices.contains i
  { feasible := decide (available_count ≥ k),
    available_shards := available_count,
    required_shards := k,
    total_shards := n,
    missing_shards := missing_indices,
    missing_count := missing_indices.length,
    redundancy_margin := (available_count : Int) - (k : Int),
    fast_path := (List.range k).all fun i => available_indices.contains i,
    message := if available_count ≥ k then "Reconstruction possible"
      else s!"Need {k - available_count} more shard(s)" }

/-! ## SHA-256 (FIPS 180-4)

`hashlib.sha256` as `manifest.py` and `reconstruct.py` call it.  Words are
naturals reduced modulo `2^32` explicitly. -/

/-- Reduce to a 32-bit word. -/
def w32 (x : Nat) : Nat := x % 4294967296

/-- 32-bit right rotation. -/
def rotr32 (x n : Nat) : Nat := w32 ((x >>> n) ||| (x <<< (32 - n)))

/-- The 64 SHA-256 round constants. -/
def sha256K : List Nat := [
  1116352408, 1899447441, 3049323471, 3921009573, 961987163, 1508970993, 2453635748, 2870763221,
  3624381080, 310598401, 607225278, 1426881987, 1925078388, 2162078206, 2614888103, 3248222580,
  3835390401, 4022224774, 264347078, 604807628, 770255983, 1249150122, 1555081692, 1996064986,
  2554220882, 2821834349, 2952996808, 3210313671, 3336571891, 3584528711, 113926993, 338241895,
  666307205, 773529912, 1294757372, 1396182291, 1695183700, 1986661051, 2177026350, 2456956037,
  2730485921, 2820302411, 3259730800, 3345764771, 3516065817, 3600352804, 4094571909, 275423344,
  430227734, 506948616, 659060556, 883997877, 958139571, 1322822218, 1537002063, 1747873779,
  1955562222, 2024104815, 2227730452, 2361852424, 2428436474, 2756734187, 3204031479, 3329325298]

/-- The SHA-256 initial hash value. -/
def sha256H0 : List Nat := [
  1779033703, 3144134277, 1013904242, 2773480762, 1359893119, 2600822924, 528734635, 1541459225]

/-- Small sigma-0 of the message schedule. -/
def sha256s0 (x : Nat) : Nat := rotr32 x 7 ^^^ rotr32 x 18 ^^^ (x >>> 3)

/-- Small sigma-1 of the message schedule. -/
def sha256s1 (x : Nat) : Nat := rotr32 x 17 ^^^ rotr32 x 19 ^^^ (x >>> 10)

/-- Big Sigma-0 of the compression function. -/
def sha256S0 (x : Nat) : Nat := rotr32 x 2 ^^^ rotr32 x 13 ^^^ rotr32 x 22

/-- Big Sigma-1 of the compression function. -/
def sha256S1 (x : Nat) : Nat := rotr32 x 6 ^^^ rotr32 x 11 ^^^ rotr32 x 25

/-- The choose function (32-bit complement written as XOR with all-ones). -/
def sha256Ch (x y z : Nat) : Nat := (x &&& y) ^^^ ((x ^^^ 0xffffffff) &&& z)

/-- The majority function. -/
def sha256Maj (x y z : Nat) : Nat := (x &&& y) ^^^ (x &&& z) ^^^ (y &&& z)

/-- Extend a 16-word block to the 64-word message schedule. -/
def sha256ExtendF : Nat → List Nat → List Nat
  | 0, ws => ws
  | c + 1, ws =>
    sha256ExtendF c (ws ++ [w32 (sha256s1 (ws.getD (ws.length - 2) 0) +
      ws.getD (ws.length - 7) 0 + sha256s0 (ws.getD (ws.length - 15) 0) +
      ws.getD (ws.length - 16) 0)])

/-- One round of the SHA-256 compression function on the 8-word state. -/
def sha256Round (st : List Nat) (kw : Nat) : List Nat :=
  match st with
  | [a, b, c, d, e, f, g, h] =>
    let t1 := w32 (h + sha256S1 e + sha256Ch e f g + kw)
    let t2 := w32 (sha256S0 a + sha256Maj a b c)
    [w32 (t1 + t2), a, b, c, w32 (d + t1), e, f, g]
  | other => other

/-- Compress one 16-word block into the running 8-word state. -/
def sha256Compress (hs block : List Nat) : List Nat :=
  let ws := sha256ExtendF 48 block
  let st := (List.zip sha256K ws).foldl
    (fun st kw => sha256Round st (w32 (kw.1 + kw.2))) hs
  (List.zip hs st).map fun p => w32 (p.1 + p.2)

/-- SHA-256 padding: append `0x80`, zeros to 56 mod 64, and the bit length
as eight big-endian bytes. -/
def sha256Pad (bytes : List Nat) : List Nat :=
  let z := (120 - (bytes.length + 1) % 64) % 64
  bytes ++ [0x80] ++ List.replicate z 0 ++
    (List.range 8).map fun i => bytes.length * 8 >>> (8 * (7 - i)) % 256

/-- Group padded bytes into big-endian 32-bit words. -/
def sha256Words (bytes : List Nat) : List Nat :=
  (List.range (bytes.length / 4)).map fun i =>
    bytes.getD (4 * i) 0 <<< 24 ||| bytes.getD (4 * i + 1) 0 <<< 16 |||
      bytes.getD (4 * i + 2) 0 <<< 8 ||| bytes.getD (4 * i + 3) 0

/-- The SHA-256 digest of a byte string, as 32 bytes. -/
def sha256 (msg : List GF256) : List GF256 :=
  let padded := sha256Pad (msg.map fun b => b.val.val)
  let words := sha256Words padded
  let blocks := (List.range (words.length / 16)).map fun i => (words.drop (16 * i)).take 16
  let final := blocks.foldl sha256Compress sha256H0
  (final.flatMap fun w => [w >>> 24, w >>> 16 % 256, w >>> 8 % 256, w % 256]).map
    GF256.ofNat

/-- One lowercase hexadecimal digit. -/
def hexDigit (n : Nat) : Char := if n < 10 then Char.ofNat (48 + n) else Char.ofNat (87 + n)

/-- Lowercase hexadecimal rendering of a byte string (`bytes.hex()` /
`hexdigest()`). -/
def bytesToHex (bs : List GF256) : String :=
  String.join (bs.map fun b => String.mk [hexDigit (b.val.val / 16), hexDigit (b.val.val % 16)])

/-- The lowercase-hex SHA-256 digest (`hashlib.sha256(data).hexdigest()`). -/
def sha256Hex (msg : List GF256) : String := bytesToHex (sha256 msg)

/-- The value of one hexadecimal digit, upper or lower case. -/
def hexDigitVal (c : Char) : Option Nat :=
  if 48 ≤ c.toNat ∧ c.toNat ≤ 57 then some (c.toNat - 48)
  else if 97 ≤ c.toNat ∧ c.toNat ≤ 102 then some (c.toNat - 87)
  else if 65 ≤ c.toNat ∧ c.toNat ≤ 70 then some (c.toNat - 55)
  else none

/-- Parse a hex string two digits at a time (`bytes.fromhex`); `none` is
the `ValueError` that Python raises. -/
def hexToBytesGo : List Char → Option (List GF256)
  | [] => some []
  | [_] => none
  | c1 :: c2 :: rest =>
    match hexDigitVal c1, hexDigitVal c2, hexToBytesGo rest with
    | some hi, some lo, some tail => some (GF256.ofNat (16 * hi + lo) :: tail)
    | _, _, _ => none

/-- `bytes.fromhex` on a string. -/
def hexToBytes (s : String) : Option (List GF256) := hexToBytesGo s.data

/-! ## `manifest.py`: manifest validation and the Merkle root -/

/-- One bottom-up Merkle level: hash adjacent pairs.  The caller pads the
layer to even length first, so the one-element case never arises. -/
def merkleLevel : List (List GF256) → List (List GF256)
  | x :: y :: rest => sha256 (x ++ y) :: merkleLevel rest
  | _ => []

/-- The `while len(layer) > 1` loop of `compute_merkle_root`, with explicit
fuel (the layer shrinks every iteration, so the starting length is enough):
pad an odd layer by duplicating its last node, then hash adjacent pairs. -/
def merkleLoopF : Nat → List (List GF256) → List (List GF256)
  | 0, layer => layer
  | fuel + 1, layer =>
    if layer.length ≤ 1 then layer
    else
      merkleLoopF fuel
        (merkleLevel (if layer.length % 2 = 1 then layer ++ [layer.getLastD []] else layer))

/-- The leaf-parsing list comprehension of `compute_merkle_root`
(`[bytes.fromhex(h) for h in leaf_hashes]`): the first invalid leaf raises
`ValueError`, modelled as `none`. -/
def parseLeaves : List String → Option (List (List GF256))
  | [] => some []
  | h :: t =>
    match hexToBytes h, parseLeaves t with
    | some b, some bs => some (b :: bs)
    | _, _ => none

/-- `compute_merkle_root` of `manifest.py`: empty input gives `""`, hex
leaves are parsed to raw bytes, layers are folded bottom-up (odd layers pad
by duplicating the last node), and the lone remaining node is rendered as
lowercase hex.  A leaf that is not valid hex is the uncaught `ValueError`
of `bytes.fromhex`. -/
def compute_merkle_root (leaves : List String) : Except String String :=
  if leaves.isEmpty then .ok ""
  else
    match parseLeaves leaves with
    | none => .error "non-hexadecimal number found in fromhex() arg"
    | some layer =>
      .ok (bytesToHex ((merkleLoopF layer.length layer).getD 0 []))

/-- The error kinds of the reconstruction pipeline.  Every `ManifestError`
the Python code raises carries only a message; the constructor records
which raise site (in the taxonomy of §7, which kind) produced it.
`uncaught` stands for a Python exception that is not a `ManifestError`
(`KeyError`, `ValueError`, `TypeError`) and so escapes the handlers in
`cli.py`. -/
inductive RecError
  | manifestInvalid (msg : String)
  | unsupportedHash (msg : String)
  | shardFileMissing (msg : String)
  | shardHashMismatch (msg : String)
  | merkleMismatch (msg : String)
  | infeasible (msg : String)
  | rsFailure (msg : String)
  | unsupportedCipher (msg : String)
  | keyRequired (msg : String)
  | missingIV (msg : String)
  | decryptionFailed (msg : String)
  | fileHashMismatch (msg : String)
  | uncaught (msg : String)
  deriving DecidableEq

/-- The `rs` block of a manifest; a missing key is `none`. -/
structure RSBlock where
  data_shards : Option Int
  parity_shards : Option Int
  total_shards : Option Int
  deriving DecidableEq

/-- One shard descriptor of a manifest.  Shard indices are modelled as
naturals, `index ∈ [0, total_shards)` per the data model of §3. -/
structure ShardDesc where
  index : Option Nat
  path : Option String
  hash : Option String
  size_bytes : Option Int
  deriving DecidableEq

/-- The optional `merkle` block of a manifest. -/
structure MerkleBlock where
  algorithm : Option String
  root : Option String
  leaf_hashes : Option (List String)
  deriving DecidableEq

/-- The optional `encryption` block of a manifest. -/
structure EncryptionBlock where
  algorithm : Option String
  iv : Option String
  tag : Option String
  deriving DecidableEq

/-- A parsed manifest document; a missing field is `none`.  (A present but
empty `merkle` object is falsy in Python exactly like a missing one, so it
is also modelled as `none`.) -/
structure Manifest where
  version : Option String
  hash_algorithm : Option String
  original_size_bytes : Option Int
  original_hash : Option String
  rs : Option RSBlock
  shards : Option (List ShardDesc)
  merkle : Option MerkleBlock
  encryption : Option EncryptionBlock
  deriving DecidableEq

/-- The per-shard loop of the shard-file check. -/
def verifyShardFilesGo (fs : String → Option (List GF256)) :
    List ShardDesc → Except RecError Unit
  | [] => .ok ()
  | shard :: rest =>
    if shard.path.isNone ∨ shard.hash.isNone then
      .error (.manifestInvalid "Shard missing path or hash")
    else
      match fs (shard.path.getD "") with
      | none => .error (.shardFileMissing ("Shard file missing: " ++ shard.path.getD ""))
      | some data =>
        if sha256Hex data ≠ shard.hash.getD "" then
          .error (.shardHashMismatch ("Shard hash mismatch for " ++ shard.path.getD ""))
        else verifyShardFilesGo fs rest

/-- The optional shard-file check of `verify_manifest`: each descriptor
must name a path and hash, the file must exist in the shard directory, and
its SHA-256 must match. -/
def verifyManifestShardFiles (shards : List ShardDesc)
    (shard_dir : Option (String → Option (List GF256))) : Except RecError Unit :=
  match shard_dir with
  | none => .ok ()
  | some fs => verifyShardFilesGo fs shards

/-- `verify_manifest` of `manifest.py`: require the five top-level fields,
`hash_algorithm == "sha256"`, the three `rs` keys, and
`len(shards) >= rs["data_shards"]`; when a shard directory is given, check
every shard file and its hash; when a `merkle` block with a truthy `root`
is present, recompute and compare the Merkle root. -/
def verify_manifest (manifest : Manifest)
    (shard_dir : Option (String → Option (List GF256))) : Except RecError Unit :=
  if manifest.version.isNone then
    .error (.manifestInvalid "Missing required field: version")
  else if manifest.hash_algorithm.isNone then
    .error (.manifestInvalid "Missing required field: hash_algorithm")
  else if manifest.original_size_bytes.isNone then
    .error (.manifestInvalid "Missing required field: original_size_bytes")
  else if manifest.rs.isNone then
    .error (.manifestInvalid "Missing required field: rs")
  else if manifest.shards.isNone then
    .error (.manifestInvalid "Missing required field: shards")
  else if manifest.hash_algorithm ≠ some "sha256" then
    .error (.unsupportedHash "Unsupported hash algorithm")
  else
    let rs := manifest.rs.getD ⟨none, none, none⟩
    if rs.data_shards.isNone then .error (.manifestInvalid "rs.data_shards missing")
    else if rs.parity_shards.isNone then .error (.manifestInvalid "rs.parity_shards missing")
    else if rs.total_shards.isNone then .error (.manifestInvalid "rs.total_shards missing")
    else
      let shards := manifest.shards.getD []
      if (shards.length : Int) < rs.data_shards.getD 0 then
        .error (.manifestInvalid "Not enough shards to reconstruct (less than data_shards)")
      else
        match verifyManifestShardFiles shards shard_dir with
        | .error e => .error e
        | .ok () =>
          match manifest.merkle with
          | some merkle =>
            match merkle.root with
            | some root =>
              if root = "" then .ok ()
              else
                match compute_merkle_root (merkle.leaf_hashes.getD []) with
                | .error e => .error (.uncaught e)
                | .ok computed =>
                  if computed ≠ root then .error (.merkleMismatch "Merkle root mismatch")
                  else .ok ()
            | none => .ok ()
          | none => .ok ()

/-! ## `reconstruct.py`: shard loading and the reconstruction orchestrator

The filesystem (the shard directory) is an explicit map from path to file
bytes; the AES-256-GCM open of the external `cryptography` library is a
parameter (`aead key iv ct`, returning the plaintext or the raised
exception text). -/

/-- `ShardInfo` of `reconstruct.py`. -/
structure ShardInfo where
  index : Nat
  path : String
  expected_hash : String
  size : Int
  data : Option (List GF256) := none
  actual_hash : Option String := none
  valid : Bool := false
  error : Option String := none
  deriving DecidableEq

/-- `ReconstructionReport` of `reconstruct.py`, as populated on the success
path (an exception discards the report object, so only the returned record
is modelled). -/
structure ReconstructionReport where
  success : Bool
  feasible : Bool
  original_size : Int
  reconstructed_size : Nat
  original_hash : Option String
  reconstructed_hash : Option String
  hash_verified : Bool
  decrypted : Bool
  shards_required : Int
  shards_available : Nat
  shards_valid : Nat
  shard_details : List ShardInfo
  rs_errors_corrected : Nat
  error : Option String
  deriving DecidableEq

/-- The body of `load_and_verify_shards` for one descriptor: the
`ShardInfo` construction reads `index`, `path` and `hash` outside the
`try`, so a missing key is an uncaught `KeyError`; inside the `try`, a
missing file or a hash mismatch only marks the record. -/
def loadOneShard (fs : String → Option (List GF256)) (shard : ShardDesc) :
    Except String ShardInfo :=
  match shard.index, shard.path, shard.hash with
  | some index, some path, some hash =>
    let info : ShardInfo :=
      { index := index, path := path, expected_hash := hash,
        size := shard.size_bytes.getD 0 }
    match fs path with
    | none => .ok { info with error := some ("File not found: " ++ path) }
    | some data =>
      let actual := sha256Hex data
      if actual = hash then
        .ok { info with data := some data, actual_hash := some actual, valid := true }
      else
        .ok { info with
          data := some data,
          actual_hash := some actual,
          error := some "Hash mismatch" }
  | _, _, _ => .error "KeyError"

/-- `load_and_verify_shards` of `reconstruct.py`. -/
def load_and_verify_shards (manifest : Manifest) (fs : String → Option (List GF256)) :
    Except String (List ShardInfo) :=
  match manifest.shards with
  | none => .error "KeyError"
  | some shards => shards.mapM (loadOneShard fs)

/-- `reconstruct_file` of `reconstruct.py`: load and hash-check the shards,
require at least `k` valid ones, erasure-decode, optionally AEAD-open when
the manifest has an `encryption` block, hash-check the plaintext, and
return it with the report.  Every `raise ManifestError` site is an
`Except.error` with the matching `RecError` kind. -/
def reconstruct_file (manifest : Manifest) (fs : String → Option (List GF256))
    (key : Option (List GF256))
    (aead : List GF256 → List GF256 → List GF256 → Except String (List GF256))
    (verify_hash : Bool) : Except RecError (List GF256 × ReconstructionReport) :=
  match manifest.rs with
  | none => .error (.uncaught "KeyError: rs")
  | some rs =>
    match rs.data_shards, rs.total_shards, manifest.original_size_bytes with
    | some kI, some nI, some original_size =>
      let k := kI.toNat
      let n := nI.toNat
      let original_hash := manifest.original_hash
      match load_and_verify_shards manifest fs with
      | .error e => .error (.uncaught e)
      | .ok shard_infos =>
        let valid_shards := shard_infos.filter (·.valid)
        let feasible := decide (k ≤ valid_shards.length)
        if ¬ feasible then
          .error (.infeasible
            s!"Need {k} valid shards, only {valid_shards.length} available")
        else
          let shard_size :=
            match valid_shards.head? with
            | some s => (s.data.getD []).length
            | none => 0
          let params : RSParams :=
            { data_shards := k, parity_shards := n - k, total_shards := n,
              shard_size := shard_size }
          let rs_result := reconstruct_data (valid_shards.map (·.data))
            (valid_shards.map (·.index)) params original_size.toNat
          if ¬ rs_result.success then
            .error (.rsFailure ("RS reconstruction failed: " ++
              (rs_result.error.getD "")))
          else
            let reconstructed := rs_result.data.getD []
            let afterDecrypt : Except RecError (List GF256 × Bool) :=
              match manifest.encryption with
              | none => .ok (reconstructed, false)
              | some enc =>
                if enc.algorithm ≠ some "aes-256-gcm" then
                  .error (.unsupportedCipher "Unsupported encryption")
                else
                  match key with
                  | none => .error (.keyRequired "Decryption key required but not provided")
                  | some [] => .error (.keyRequired "Decryption key required but not provided")
                  | some keyBytes =>
                    let iv_hex := enc.iv.getD ""
                    if iv_hex = "" then .error (.missingIV "Missing IV for AES-GCM")
                    else
                      match hexToBytes iv_hex with
                      | none => .error (.decryptionFailed "Decryption failed: bad IV hex")
                      | some iv =>
                        let withTag : Except RecError (List GF256) :=
                          match enc.tag with
                          | some tag =>
                            if tag = "" then .ok reconstructed
                            else
                              match hexToBytes tag with
                              | none => .error (.decryptionFailed "Decryption failed: bad tag hex")
                              | some tagBytes => .ok (reconstructed ++ tagBytes)
                          | none => .ok reconstructed
                        match withTag with
                        | .error e => .error e
                        | .ok ciphertext_with_tag =>
                          match aead keyBytes iv ciphertext_with_tag with
                          | .error e => .error (.decryptionFailed ("Decryption failed: " ++ e))
                          | .ok plain => .ok (plain, true)
            match afterDecrypt with
            | .error e => .error e
            | .ok (plaintext, decrypted) =>
              let reconstructed_hash := sha256Hex plaintext
              let hash_verified :=
                verify_hash &&
                  (original_hash.map fun h => decide (reconstructed_hash = h)).getD false
              if verify_hash ∧ original_hash.isSome ∧
                  some reconstructed_hash ≠ original_hash then
                .error (.fileHashMismatch "Hash mismatch")
              else
                .ok (plaintext,
                  { success := true, feasible := true,
                    original_size := original_size,
                    reconstructed_size := plaintext.length,
                    original_hash := original_hash,
                    reconstructed_hash := some reconstructed_hash,
                    hash_verified := hash_verified,
                    decrypted := decrypted,
                    shards_required := kI,
                    shards_available :=
                      (shard_infos.filter (·.data.isSome)).length,
                    shards_valid := valid_shards.length,
                    shard_details := shard_infos,
                    rs_errors_corrected := rs_result.corrected_errors,
                    error := none })
    | _, _, _ => .error (.uncaught "KeyError")

/-! ## `cli.py`: the `rebuild` command

`cmd_rebuild` binds the full `(bytes, report)` return value of
`reconstruct_file` to `data` without unpacking it and hands it to
`Path.write_bytes`.  Python types that call dynamically, so the value
passed to `write_bytes` is modelled explicitly as a dynamic value. -/

/-- A Python value reaching `Path.write_bytes`: either a bytes object or
the `(bytes, report)` tuple that `reconstruct_file` returns. -/
inductive PyVal
  | bytes (bs : List GF256)
  | tuple (fst : List GF256) (snd : ReconstructionReport)
  deriving DecidableEq

/-- `Path.write_bytes`: accepts a bytes-like object and returns the bytes
written; anything else (a tuple) raises `TypeError`. -/
def writeBytes : PyVal → Except String (List GF256)
  | .bytes bs => .ok bs
  | .tuple _ _ => .error "TypeError: a bytes-like object is required, not tuple"

/-- The outcome of one CLI invocation: `exit_code = none` models a crash by
an uncaught exception; `written` is the content written to `--out`. -/
structure CmdResult where
  exit_code : Option Nat
  written : Option (List GF256)
  deriving DecidableEq

/-- `cmd_rebuild` of `cli.py` (manifest already loaded and parsed): verify
the manifest against the shard directory, run `reconstruct_file`, and write
the result to `--out`.  Only `ManifestError` is caught (exit 1); any other
exception crashes.  The value written is `data = reconstruct_file(...)`,
bound without unpacking the returned tuple. -/
def cmd_rebuild (manifest : Manifest) (fs : String → Option (List GF256))
    (key : Option (List GF256))
    (aead : List GF256 → List GF256 → List GF256 → Except String (List GF256)) :
    CmdResult :=
  match verify_manifest manifest (some fs) with
  | .error (.uncaught _) => { exit_code := none, written := none }
  | .error _ => { exit_code := some 1, written := none }
  | .ok () =>
    match reconstruct_file manifest fs key aead true with
    | .error (.uncaught _) => { exit_code := none, written := none }
    | .error _ => { exit_code := some 1, written := none }
    | .ok (data, report) =>
      match writeBytes (.tuple data report) with
      | .error _ => { exit_code := none, written := none }
      | .ok bs => { exit_code := some 0, written := some bs }

/-! ## List and arithmetic lemmas for the encode/decode proofs -/

theorem getD_map_range {α : Type} (n i : Nat) (f : Nat → α) (d : α) (h : i < n) :
    ((List.range n).map f).getD i d = f i := by
  rw [List.getD_eq_getElem _ d (by simpa using h)]
  simp

theorem getD_map_of_lt {α β : Type} (l : List α) (f : α → β) (i : Nat) (d : β) (d' : α)
    (h : i < l.length) : (l.map f).getD i d = f (l.getD i d') := by
  rw [List.getD_eq_getElem _ _ (by simpa using h), List.getD_eq_getElem _ _ h]
  simp

theorem map_range_getD_eq_self {α : Type} (d : α) :
    ∀ l : List α, (List.range l.length).map (fun i => l.getD i d) = l := by
  intro l
  induction l with
  | nil => rfl
  | cons a t ih =>
    rw [List.length_cons, List.range_succ_eq_map, List.map_cons, List.map_map]
    refine congrArg₂ _ rfl ?_
    calc (List.range t.length).map ((fun i => (a :: t).getD i d) ∘ (· + 1))
        = (List.range t.length).map (fun i => t.getD i d) := by
          apply List.map_congr_left
          intro i _
          rfl
      _ = t := ih

theorem flatten_slices {α : Type} :
    ∀ (k : Nat) (s : Nat) (L : List α), L.length = k * s →
      ((List.range k).map fun i => (L.drop (i * s)).take s).flatten = L := by
  intro k
  induction k with
  | zero =>
    intro s L hL
    rw [Nat.zero_mul] at hL
    rw [List.eq_nil_of_length_eq_zero hL]
    rfl
  | succ k ih =>
    intro s L hL
    rw [List.range_succ_eq_map, List.map_cons, List.map_map, List.flatten_cons]
    have hstep : (List.range k).map ((fun i => (L.drop (i * s)).take s) ∘ (· + 1)) =
        (List.range k).map (fun i => ((L.drop s).drop (i * s)).take s) := by
      apply List.map_congr_left
      intro i _
      show (L.drop ((i + 1) * s)).take s = ((L.drop s).drop (i * s)).take s
      rw [List.drop_drop]
      have h : s + i * s = (i + 1) * s := by ring
      rw [h]
    rw [hstep]
    have hlen : (L.drop s).length = k * s := by
      rw [List.length_drop, hL]
      have : s ≤ (k + 1) * s := by nlinarith
      have h2 : (k + 1) * s = k * s + s := by ring
      omega
    rw [ih s (L.drop s) hlen]
    simp [List.take_append_drop]

theorem padSize_ge (len k : Nat) (hk : 1 ≤ k) : len ≤ padSize len k := by
  unfold padSize
  set m := (len + k - 1) / k * k with hm
  have hdm : k * ((len + k - 1) / k) + (len + k - 1) % k = len + k - 1 :=
    Nat.div_add_mod _ k
  have hmod : (len + k - 1) % k < k := Nat.mod_lt _ (by omega)
  have hm' : m = k * ((len + k - 1) / k) := by rw [hm, Nat.mul_comm]
  omega

theorem padSize_eq_k_mul (len k : Nat) (hk : 1 ≤ k) :
    padSize len k = k * shardSize len k := by
  unfold shardSize padSize
  rw [Nat.mul_div_left _ (by omega : 0 < k)]
  ring

theorem paddedData_length (data : List GF256) (k : Nat) (hk : 1 ≤ k) :
    (paddedData data k).length = k * shardSize data.length k := by
  unfold paddedData
  rw [List.length_append, List.length_replicate]
  have h1 := padSize_ge data.length k hk
  have h2 := padSize_eq_k_mul data.length k hk
  omega

theorem paddedData_take (data : List GF256) (k : Nat) :
    (paddedData data k).take data.length = data :=
  List.take_left data _

theorem dataShardsOf_length (data : List GF256) (k : Nat) :
    (dataShardsOf data k).length = k := by
  unfold dataShardsOf
  simp

theorem dataShardsOf_getD (data : List GF256) (k i : Nat) (hi : i < k) :
    (dataShardsOf data k).getD i [] =
      ((paddedData data k).drop (i * shardSize data.length k)).take
        (shardSize data.length k) := by
  unfold dataShardsOf
  exact getD_map_range k i _ [] hi

theorem dataShardsOf_getD_length (data : List GF256) (k i : Nat) (hk : 1 ≤ k)
    (hi : i < k) :
    ((dataShardsOf data k).getD i []).length = shardSize data.length k := by
  rw [dataShardsOf_getD data k i hi, List.length_take, List.length_drop,
    paddedData_length data k hk]
  have h1 : (i + 1) * shardSize data.length k ≤ k * shardSize data.length k :=
    Nat.mul_le_mul_right _ (by omega)
  have h2 : (i + 1) * shardSize data.length k =
      i * shardSize data.length k + shardSize data.length k := by ring
  omega

theorem dataShardsOf_flatten (data : List GF256) (k : Nat) (hk : 1 ≤ k) :
    (dataShardsOf data k).flatten = paddedData data k := by
  unfold dataShardsOf
  exact flatten_slices k _ _ (paddedData_length data k hk)

theorem parityShardsOf_length (data : List GF256) (k n : Nat) :
    (parityShardsOf data k n).length = n - k := by
  unfold parityShardsOf
  simp

theorem parityShardsOf_getD (data : List GF256) (k n j : Nat) (hj : j < n - k) :
    (parityShardsOf data k n).getD j [] =
      ((List.range (shardSize data.length k)).map fun p => encodeColumn data k n p).map
        (fun col => col.getD (k + j) 0) := by
  unfold parityShardsOf
  exact getD_map_range _ j _ [] hj

theorem parityShardsOf_getD_length (data : List GF256) (k n j : Nat) (hj : j < n - k) :
    ((parityShardsOf data k n).getD j []).length = shardSize data.length k := by
  rw [parityShardsOf_getD data k n j hj]
  simp

theorem encode_data_ok (data : List GF256) (k n : Nat) (h1 : 1 ≤ k) (h2 : k < n) :
    encode_data data k n = .ok (dataShardsOf data k ++ parityShardsOf data k n,
      { data_shards := k, parity_shards := n - k, total_shards := n,
        shard_size := shardSize data.length k }) := by
  unfold encode_data
  rw [if_neg (by omega), if_neg (by omega)]

theorem allShards_getD_length (data : List GF256) (k n idx : Nat) (hk : 1 ≤ k)
    (hidx : idx < n) :
    ((dataShardsOf data k ++ parityShardsOf data k n).getD idx []).length =
      shardSize data.length k := by
  by_cases h : idx < k
  · rw [List.getD_append _ _ _ _ (by rw [dataShardsOf_length]; exact h)]
    exact dataShardsOf_getD_length data k idx hk h
  · rw [List.getD_append_right _ _ _ _ (by rw [dataShardsOf_length]; omega),
      dataShardsOf_length]
    exact parityShardsOf_getD_length data k n (idx - k) (by omega)

theorem encodeColumn_msg_length (data : List GF256) (k p : Nat) :
    ((dataShardsOf data k).map fun shard => shard.getD p 0).length = k := by
  rw [List.length_map, dataShardsOf_length]

theorem allShards_byte_eq_encodeColumn (data : List GF256) (k n idx p : Nat)
    (hk : 1 ≤ k) (hidx : idx < n) (hp : p < shardSize data.length k) :
    ((dataShardsOf data k ++ parityShardsOf data k n).getD idx []).getD p 0 =
      (encodeColumn data k n p).getD idx 0 := by
  by_cases h : idx < k
  · rw [List.getD_append _ _ _ _ (by rw [dataShardsOf_length]; exact h)]
    unfold encodeColumn rsEncodeMsg
    rw [List.getD_append _ _ _ _ (by rw [encodeColumn_msg_length]; exact h)]
    rw [getD_map_of_lt _ _ idx 0 [] (by rw [dataShardsOf_length]; exact h)]
  · rw [List.getD_append_right _ _ _ _ (by rw [dataShardsOf_length]; omega),
      dataShardsOf_length, parityShardsOf_getD data k n (idx - k) (by omega),
      List.map_map]
    rw [getD_map_range _ p _ 0 hp]
    have hidx' : k + (idx - k) = idx := by omega
    simp only [Function.comp_apply]
    rw [hidx']

theorem buildShardMap_nil (i : Nat) : buildShardMap [] [] i = none := rfl

theorem buildShardMap_concat (sel : List Nat) (shs : List (Option (List GF256)))
    (hlen : sel.length = shs.length) (j : Nat) (s : Option (List GF256)) (i : Nat) :
    buildShardMap (sel ++ [j]) (shs ++ [s]) i =
      match s with
      | some d => if i = j then some d else buildShardMap sel shs i
      | none => buildShardMap sel shs i := by
  unfold buildShardMap
  rw [List.zip_append hlen, List.foldl_append]
  cases s <;> rfl

theorem buildShardMap_concat_some (sel : List Nat) (shs : List (Option (List GF256)))
    (hlen : sel.length = shs.length) (j : Nat) (d : List GF256) (i : Nat) :
    buildShardMap (sel ++ [j]) (shs ++ [some d]) i =
      if i = j then some d else buildShardMap sel shs i :=
  buildShardMap_concat sel shs hlen j (some d) i

theorem buildShardMap_concat_none (sel : List Nat) (shs : List (Option (List GF256)))
    (hlen : sel.length = shs.length) (j : Nat) (i : Nat) :
    buildShardMap (sel ++ [j]) (shs ++ [none]) i = buildShardMap sel shs i :=
  buildShardMap_concat sel shs hlen j none i

theorem buildShardMap_map_some (f : Nat → List GF256) :
    ∀ (sel : List Nat) (i : Nat),
      buildShardMap sel (sel.map fun j => some (f j)) i =
        if i ∈ sel then some (f i) else none := by
  intro sel
  induction sel using List.reverseRecOn with
  | nil =>
    intro i
    simp [buildShardMap]
  | append_singleton l j ih =>
    intro i
    rw [List.map_append]
    simp only [List.map_cons, List.map_nil]
    rw [buildShardMap_concat_some l (l.map fun j => some (f j)) (by simp) j (f j) i]
    by_cases hij : i = j
    · subst hij
      simp
    · simp only [if_neg hij, ih i, List.mem_append, List.mem_singleton, hij, or_false,
        if_false, false_or]

theorem buildShardMap_mem :
    ∀ (shs : List (Option (List GF256))) (sel : List Nat), sel.length = shs.length →
      ∀ i b, buildShardMap sel shs i = some b → some b ∈ shs := by
  intro shs
  induction shs using List.reverseRecOn with
  | nil =>
    intro sel hlen i b h
    exfalso
    have hnone : buildShardMap sel [] i = none := by
      unfold buildShardMap
      rw [List.zip_nil_right]
      rfl
    rw [hnone] at h
    exact Option.noConfusion h
  | append_singleton shs' s ih =>
    intro sel hlen i b h
    rcases sel.eq_nil_or_concat with rfl | ⟨sel', j, rfl⟩
    · rw [List.length_append] at hlen
      simp at hlen
    · rw [List.concat_eq_append] at h hlen
      have hlen' : sel'.length = shs'.length := by
        rw [List.length_append, List.length_append] at hlen
        simpa using hlen
      cases s with
      | none =>
        rw [buildShardMap_concat_none sel' shs' hlen' j i] at h
        exact List.mem_append_left _ (ih sel' hlen' i b h)
      | some d =>
        rw [buildShardMap_concat_some sel' shs' hlen' j d i] at h
        by_cases hij : i = j
        · rw [if_pos hij] at h
          have hbd : b = d := by
            injection h with h'
            exact h'.symm
          subst hbd
          exact List.mem_append_right _ (List.mem_singleton.mpr rfl)
        · rw [if_neg hij] at h
          exact List.mem_append_left _ (ih sel' hlen' i b h)

theorem fastPath_eq (data : List GF256) (k n : Nat) (hk : 1 ≤ k)
    (sel : List Nat) (hdata : ∀ i, i < k → i ∈ sel) :
    fastPathData
      (buildShardMap sel (sel.map fun i =>
        some ((dataShardsOf data k ++ parityShardsOf data k n).getD i [])))
      k data.length = data := by
  unfold fastPathData
  have h1 : ((List.range k).map fun i =>
      ((buildShardMap sel (sel.map fun i =>
        some ((dataShardsOf data k ++ parityShardsOf data k n).getD i []))) i).getD []) =
      dataShardsOf data k := by
    calc ((List.range k).map fun i =>
        ((buildShardMap sel (sel.map fun i =>
          some ((dataShardsOf data k ++ parityShardsOf data k n).getD i []))) i).getD [])
        = (List.range k).map fun i => (dataShardsOf data k).getD i [] := by
          apply List.map_congr_left
          intro i hi
          rw [List.mem_range] at hi
          rw [buildShardMap_map_some _ sel i, if_pos (hdata i hi)]
          simp only [Option.getD_some]
          exact List.getD_append _ _ _ _ (by rw [dataShardsOf_length]; exact hi)
      _ = dataShardsOf data k := by
          have h := map_range_getD_eq_self ([] : List GF256) (dataShardsOf data k)
          rwa [dataShardsOf_length] at h
  rw [h1, dataShardsOf_flatten data k hk]
  exact paddedData_take data k

theorem allBytes_mem (b : GF256) : b ∈ allBytes := by
  unfold allBytes
  rw [List.mem_map]
  refine ⟨b.val.val, List.mem_range.mpr b.val.isLt, ?_⟩
  exact GF256.valEq (Nat.mod_eq_of_lt b.val.isLt)

theorem rsEncodeMsg_getD_info (msg : List GF256) (nsym i : Nat) (hi : i < msg.length) :
    (rsEncodeMsg msg nsym).getD i 0 = msg.getD i 0 := by
  unfold rsEncodeMsg
  exact List.getD_append _ _ _ _ hi

/-- The information column at byte position `p`: the byte at position `p`
of each data shard (`data_bytes` in `encode_data`). -/
def msgColumn (data : List GF256) (k p : Nat) : List GF256 :=
  (dataShardsOf data k).map fun shard => shard.getD p 0

theorem msgColumn_length (data : List GF256) (k p : Nat) :
    (msgColumn data k p).length = k := by
  unfold msgColumn
  rw [List.length_map, dataShardsOf_length]

theorem encodeColumn_eq (data : List GF256) (k n p : Nat) :
    encodeColumn data k n p = rsEncodeMsg (msgColumn data k p) (n - k) := rfl

theorem candidateMsgs_sound (codeword : List GF256) (erased : Nat → Bool) :
    ∀ (k : Nat) (m : List GF256), m ∈ candidateMsgs codeword erased k →
      m.length = k ∧ ∀ i, i < k → erased i = false → m.getD i 0 = codeword.getD i 0 := by
  intro k
  induction k with
  | zero =>
    intro m hm
    simp only [candidateMsgs, List.mem_singleton] at hm
    subst hm
    exact ⟨rfl, by omega⟩
  | succ k ih =>
    intro m hm
    simp only [candidateMsgs, List.mem_flatMap, List.mem_map] at hm
    obtain ⟨m', hm', b, hb, rfl⟩ := hm
    obtain ⟨hlen, hagree⟩ := ih m' hm'
    constructor
    · rw [List.length_append, hlen]
      rfl
    · intro i hi hnot
      by_cases hik : i < k
      · rw [List.getD_append _ _ _ _ (by rw [hlen]; exact hik)]
        exact hagree i hik hnot
      · have hik' : i = k := by omega
        subst hik'
        rw [List.getD_append_right _ _ _ _ (by rw [hlen])]
        rw [hlen, Nat.sub_self]
        simp only [List.getD_cons_zero]
        simp only [hnot, Bool.false_eq_true, if_false, List.mem_singleton] at hb
        exact hb

theorem candidateMsgs_complete (codeword : List GF256) (erased : Nat → Bool) :
    ∀ (k : Nat) (m : List GF256), m.length = k →
      (∀ i, i < k → erased i = false → m.getD i 0 = codeword.getD i 0) →
      m ∈ candidateMsgs codeword erased k := by
  intro k
  induction k with
  | zero =>
    intro m hm _
    rw [List.eq_nil_of_length_eq_zero hm]
    simp [candidateMsgs]
  | succ k ih =>
    intro m hm hagree
    rcases m.eq_nil_or_concat with rfl | ⟨m', b, rfl⟩
    · simp at hm
    · rw [List.concat_eq_append] at hm hagree ⊢
      have hm' : m'.length = k := by
        rw [List.length_append] at hm
        simpa using hm
      simp only [candidateMsgs, List.mem_flatMap, List.mem_map]
      refine ⟨m', ih m' hm' ?_, b, ?_, rfl⟩
      · intro i hi hnot
        have h := hagree i (by omega) hnot
        rwa [List.getD_append _ _ _ _ (by rw [hm']; exact hi)] at h
      · by_cases he : erased k = true
        · rw [if_pos he]
          exact allBytes_mem b
        · rw [Bool.not_eq_true] at he
          have h := hagree k (by omega) he
          rw [List.getD_append_right _ _ _ _ (by rw [hm']), hm', Nat.sub_self] at h
          simp only [List.getD_cons_zero] at h
          rw [he]
          simp only [Bool.false_eq_true, if_false, List.mem_singleton]
          exact h

theorem erasureColumn_enc (data : List GF256) (k n p : Nat) (sel : List Nat)
    (hk : 1 ≤ k) (hsel : ∀ i ∈ sel, i < n) (hp : p < shardSize data.length k) :
    erasureColumn
      (buildShardMap sel (sel.map fun i =>
        some ((dataShardsOf data k ++ parityShardsOf data k n).getD i []))) n p =
      .ok ((List.range n).map fun idx =>
            if idx ∈ sel then
              ((dataShardsOf data k ++ parityShardsOf data k n).getD idx []).getD p 0
            else 0,
          (List.range n).filter fun idx => !(decide (idx ∈ sel))) := by
  unfold erasureColumn
  rw [if_pos]
  · refine congrArg _ (Prod.ext ?_ ?_)
    · apply List.map_congr_left
      intro idx hidx
      rw [buildShardMap_map_some _ sel idx]
      by_cases hmem : idx ∈ sel
      · rw [if_pos hmem, if_pos hmem]
      · rw [if_neg hmem, if_neg hmem]
    · apply List.filter_congr
      intro idx hidx
      rw [buildShardMap_map_some _ sel idx]
      by_cases hmem : idx ∈ sel
      · rw [if_pos hmem]
        simp [hmem]
      · rw [if_neg hmem]
        simp [hmem]
  · rw [List.all_eq_true]
    intro idx hidx
    rw [List.mem_range] at hidx
    rw [buildShardMap_map_some _ sel idx]
    by_cases hmem : idx ∈ sel
    · rw [if_pos hmem]
      simp only [decide_eq_true_eq]
      rw [allShards_getD_length data k n idx hk hidx]
      exact hp
    · rw [if_neg hmem]

theorem erasePos_length_le (n k : Nat) (sel : List Nat) (hsel : ∀ i ∈ sel, i < n)
    (hnodup : sel.Nodup) (hcard : k ≤ sel.length) :
    ((List.range n).filter fun idx => !(decide (idx ∈ sel))).length ≤ n - k := by
  have hsplit : (List.range n).length =
      ((List.range n).filter fun idx => decide (idx ∈ sel)).length +
        ((List.range n).filter fun idx => !(decide (idx ∈ sel))).length :=
    List.length_eq_length_filter_add _
  have hpres : k ≤ ((List.range n).filter fun idx => decide (idx ∈ sel)).length := by
    have hsub : sel.toFinset ⊆
        ((List.range n).filter fun idx => decide (idx ∈ sel)).toFinset := by
      intro x hx
      rw [List.mem_toFinset] at hx
      rw [List.mem_toFinset, List.mem_filter]
      exact ⟨List.mem_range.mpr (hsel x hx), by simpa using hx⟩
    have h1 : sel.toFinset.card = sel.length := List.toFinset_card_of_nodup hnodup
    have h2 : ((List.range n).filter fun idx => decide (idx ∈ sel)).toFinset.card =
        ((List.range n).filter fun idx => decide (idx ∈ sel)).length :=
      List.toFinset_card_of_nodup ((List.nodup_range n).filter _)
    calc k ≤ sel.length := hcard
      _ = sel.toFinset.card := h1.symm
      _ ≤ ((List.range n).filter fun idx => decide (idx ∈ sel)).toFinset.card :=
          Finset.card_le_card hsub
      _ = ((List.range n).filter fun idx => decide (idx ∈ sel)).length := h2
  rw [List.length_range] at hsplit
  omega

theorem rsDecodeColumn_enc (data : List GF256) (k nsym p : Nat) (sel : List Nat)
    (hk : 1 ≤ k) (hn255 : k + nsym ≤ 255)
    (hsel : ∀ i ∈ sel, i < k + nsym) (hnodup : sel.Nodup) (hcard : k ≤ sel.length)
    (hp : p < shardSize data.length k) :
    rsDecodeColumn
      ((List.range (k + nsym)).map fun idx =>
        if idx ∈ sel then
          ((dataShardsOf data k ++ parityShardsOf data k (k + nsym)).getD idx []).getD p 0
        else 0)
      ((List.range (k + nsym)).filter fun idx => !(decide (idx ∈ sel)))
      k (k + nsym) = .ok (msgColumn data k p) := by
  set cw := ((List.range (k + nsym)).map fun idx =>
    if idx ∈ sel then
      ((dataShardsOf data k ++ parityShardsOf data k (k + nsym)).getD idx []).getD p 0
    else 0) with hcw
  set er := ((List.range (k + nsym)).filter fun idx => !(decide (idx ∈ sel))) with her
  have hnk : k + nsym - k = nsym := by omega
  have her_mem : ∀ i, i ∈ er ↔ i < k + nsym ∧ ¬ i ∈ sel := by
    intro i
    rw [her, List.mem_filter, List.mem_range]
    simp
  have hcw_getD : ∀ idx, idx < k + nsym → cw.getD idx 0 =
      if idx ∈ sel then
        ((dataShardsOf data k ++ parityShardsOf data k (k + nsym)).getD idx []).getD p 0
      else 0 := by
    intro idx hidx
    rw [hcw]
    exact getD_map_range _ idx _ 0 hidx
  have hcw_sel : ∀ idx, idx < k + nsym → idx ∈ sel →
      cw.getD idx 0 = (rsEncodeMsg (msgColumn data k p) nsym).getD idx 0 := by
    intro idx hidx hmem
    rw [hcw_getD idx hidx, if_pos hmem,
      allShards_byte_eq_encodeColumn data k (k + nsym) idx p hk hidx hp, encodeColumn_eq,
      hnk]
  have hpredTrue : ((List.range (k + nsym)).all fun i =>
      er.contains i ||
        decide ((rsEncodeMsg (msgColumn data k p) (k + nsym - k)).getD i 0 =
          cw.getD i 0)) = true := by
    rw [List.all_eq_true]
    intro i hi
    rw [List.mem_range] at hi
    rw [Bool.or_eq_true]
    by_cases hmem : i ∈ sel
    · right
      rw [decide_eq_true_eq, hnk]
      exact (hcw_sel i hi hmem).symm
    · left
      exact List.elem_iff.mpr ((her_mem i).mpr ⟨hi, hmem⟩)
  have hmemCand : msgColumn data k p ∈ candidateMsgs cw (fun i => er.contains i) k := by
    apply candidateMsgs_complete cw _ k _ (msgColumn_length data k p)
    intro i hik hfalse
    have hmem : i ∈ sel := by
      by_contra hmem
      have h1 : i ∈ er := (her_mem i).mpr ⟨by omega, hmem⟩
      have h2 : er.contains i = true := List.elem_iff.mpr h1
      rw [hfalse] at h2
      exact Bool.noConfusion h2
    rw [hcw_sel i (by omega) hmem]
    exact (rsEncodeMsg_getD_info _ nsym i (by rw [msgColumn_length]; exact hik)).symm
  unfold rsDecodeColumn
  rw [if_neg (by
    have h1 := erasePos_length_le (k + nsym) k sel hsel hnodup hcard
    rw [← her] at h1
    omega)]
  have hfindSome : ((candidateMsgs cw (fun i => er.contains i) k).find? fun m =>
      (List.range (k + nsym)).all fun i =>
        er.contains i ||
          decide ((rsEncodeMsg m (k + nsym - k)).getD i 0 = cw.getD i 0)).isSome :=
    List.find?_isSome.mpr ⟨msgColumn data k p, hmemCand, hpredTrue⟩
  obtain ⟨m', hm'⟩ := Option.isSome_iff_exists.mp hfindSome
  rw [hm']
  have hpred' := List.find?_some hm'
  have hmem' := List.mem_of_find?_eq_some hm'
  obtain ⟨hlen', _⟩ := candidateMsgs_sound cw _ k m' hmem'
  have hTdef : ∀ m, m ∈ sel.toFinset → m < k + nsym :=
    fun m hm => hsel m (List.mem_toFinset.mp hm)
  have hTcard : k ≤ (sel.toFinset.attachFin hTdef).card := by
    rw [Finset.card_attachFin, List.toFinset_card_of_nodup hnodup]
    exact hcard
  have hagree : ∀ i : Fin (k + nsym), i ∈ sel.toFinset.attachFin hTdef →
      (rsEncodeMsg m' nsym).getD i.val 0 =
        (rsEncodeMsg (msgColumn data k p) nsym).getD i.val 0 := by
    intro i hiT
    have hisel : i.val ∈ sel := List.mem_toFinset.mp ((Finset.mem_attachFin hTdef).mp hiT)
    rw [List.all_eq_true] at hpred'
    have h2 := hpred' i.val (List.mem_range.mpr i.isLt)
    rw [Bool.or_eq_true] at h2
    cases h2 with
    | inl h2 =>
      exfalso
      exact ((her_mem i.val).mp (List.elem_iff.mp h2)).2 hisel
    | inr h2 =>
      rw [decide_eq_true_eq, hnk] at h2
      rw [h2, hcw_sel i.val i.isLt hisel]
  have hfin := rsEncodeMsg_inj_on_agreement k nsym hk hn255 m' (msgColumn data k p)
    hlen' (msgColumn_length data k p) (sel.toFinset.attachFin hTdef) hTcard hagree
  exact congrArg Except.ok hfin

theorem erasureColumnsGo_enc (data : List GF256) (k nsym : Nat) (sel : List Nat)
    (hk : 1 ≤ k) (hn255 : k + nsym ≤ 255) (hsel : ∀ i ∈ sel, i < k + nsym)
    (hnodup : sel.Nodup) (hcard : k ≤ sel.length) :
    ∀ ps : List Nat, (∀ p ∈ ps, p < shardSize data.length k) →
      ∃ c : Nat, erasureColumnsGo
          (buildShardMap sel (sel.map fun i =>
            some ((dataShardsOf data k ++ parityShardsOf data k (k + nsym)).getD i [])))
          k (k + nsym) ps =
        .ok (ps.map fun p => msgColumn data k p, c) := by
  intro ps
  induction ps with
  | nil =>
    intro _
    exact ⟨0, rfl⟩
  | cons p rest ih =>
    intro hps
    have hp := hps p (List.mem_cons_self p rest)
    obtain ⟨c, hc⟩ := ih fun q hq => hps q (List.mem_cons_of_mem p hq)
    refine ⟨((List.range (k + nsym)).filter fun idx => !(decide (idx ∈ sel))).length + c, ?_⟩
    have hcol := erasureColumn_enc data k (k + nsym) p sel hk hsel hp
    have hdec := rsDecodeColumn_enc data k nsym p sel hk hn255 hsel hnodup hcard hp
    simp only [erasureColumnsGo, hcol, hdec, hc, List.map_cons]

theorem erasurePath_enc (data : List GF256) (k nsym : Nat) (sel : List Nat)
    (hk : 1 ≤ k) (hn255 : k + nsym ≤ 255) (hsel : ∀ i ∈ sel, i < k + nsym)
    (hnodup : sel.Nodup) (hcard : k ≤ sel.length) (ac : Nat) :
    (erasurePathResult
      (buildShardMap sel (sel.map fun i =>
        some ((dataShardsOf data k ++ parityShardsOf data k (k + nsym)).getD i [])))
      { data_shards := k, parity_shards := nsym, total_shards := k + nsym,
        shard_size := shardSize data.length k } data.length ac).success = true ∧
    (erasurePathResult
      (buildShardMap sel (sel.map fun i =>
        some ((dataShardsOf data k ++ parityShardsOf data k (k + nsym)).getD i [])))
      { data_shards := k, parity_shards := nsym, total_shards := k + nsym,
        shard_size := shardSize data.length k } data.length ac).data = some data := by
  obtain ⟨c, hgo⟩ := erasureColumnsGo_enc data k nsym sel hk hn255 hsel hnodup hcard
    (List.range (shardSize data.length k)) (fun p hp => List.mem_range.mp hp)
  unfold erasurePathResult
  simp only [hgo]
  refine ⟨trivial, ?_⟩
  have h1 : ∀ i ∈ List.range k,
      (((List.range (shardSize data.length k)).map fun p => msgColumn data k p).map
        fun col => col.getD i 0) = (dataShardsOf data k).getD i [] := by
    intro i hi
    rw [List.mem_range] at hi
    rw [List.map_map]
    have hcomp : ((fun col => col.getD i 0) ∘ fun p => msgColumn data k p) =
        fun p => ((dataShardsOf data k).getD i []).getD p 0 := by
      funext p
      simp only [Function.comp_apply]
      unfold msgColumn
      exact getD_map_of_lt _ _ i 0 [] (by rw [dataShardsOf_length]; exact hi)
    rw [hcomp]
    have hlen := dataShardsOf_getD_length data k i hk hi
    have h2 := map_range_getD_eq_self (0 : GF256) ((dataShardsOf data k).getD i [])
    rwa [hlen] at h2
  have h2 : ((List.range k).map fun i =>
      (((List.range (shardSize data.length k)).map fun p => msgColumn data k p).map
        fun col => col.getD i 0)) = dataShardsOf data k := by
    rw [List.map_congr_left h1]
    have h3 := map_range_getD_eq_self ([] : List GF256) (dataShardsOf data k)
    rwa [dataShardsOf_length] at h3
  rw [h2, dataShardsOf_flatten data k hk, paddedData_take data k]

theorem reconstruct_data_enc_subset (data : List GF256) (k nsym : Nat) (sel : List Nat)
    (hk : 1 ≤ k) (hn255 : k + nsym ≤ 255) (hsel : ∀ i ∈ sel, i < k + nsym)
    (hnodup : sel.Nodup) (hcard : k ≤ sel.length) :
    (reconstruct_data
      (sel.map fun i =>
        some ((dataShardsOf data k ++ parityShardsOf data k (k + nsym)).getD i [])) sel
      { data_shards := k, parity_shards := nsym, total_shards := k + nsym,
        shard_size := shardSize data.length k } data.length).success = true ∧
    (reconstruct_data
      (sel.map fun i =>
        some ((dataShardsOf data k ++ parityShardsOf data k (k + nsym)).getD i [])) sel
      { data_shards := k, parity_shards := nsym, total_shards := k + nsym,
        shard_size := shardSize data.length k } data.length).data = some data := by
  have hfilter : ((sel.map fun i =>
      some ((dataShardsOf data k ++ parityShardsOf data k (k + nsym)).getD i [])).filter
        Option.isSome) = sel.map fun i =>
      some ((dataShardsOf data k ++ parityShardsOf data k (k + nsym)).getD i []) := by
    rw [List.filter_eq_self]
    intro x hx
    rw [List.mem_map] at hx
    obtain ⟨i, _, rfl⟩ := hx
    rfl
  unfold reconstruct_data
  simp only [hfilter, List.length_map]
  rw [if_neg (by omega : ¬ sel.length < k)]
  by_cases hfast : ((List.range k).all fun i =>
      ((buildShardMap sel (sel.map fun i =>
        some ((dataShardsOf data k ++ parityShardsOf data k (k + nsym)).getD i []))) i).isSome) = true
  · rw [if_pos hfast]
    refine ⟨rfl, ?_⟩
    have hdata : ∀ i, i < k → i ∈ sel := by
      rw [List.all_eq_true] at hfast
      intro i hi
      have h := hfast i (List.mem_range.mpr hi)
      rw [buildShardMap_map_some] at h
      by_contra hmem
      rw [if_neg hmem] at h
      exact Bool.noConfusion h
    rw [fastPath_eq data k (k + nsym) hk sel hdata]
  · rw [if_neg hfast]
    exact erasurePath_enc data k nsym sel hk hn255 hsel hnodup hcard sel.length

/-! ## The claims -/

/-- C1: Round-trip — for every plaintext `P` and every `k`, `n` with
`1 ≤ k < n ≤ 255`, `reconstruct_data` applied to all `n` shards produced by
`encode_data P k n` (with `original_size = |P|`) succeeds and returns
exactly `P`. -/
theorem encode_reconstruct_roundtrip (P : List GF256) (k n : Nat)
    (hk : 1 ≤ k) (hkn : k < n) (hn : n ≤ 255)
    (shards : List (List GF256)) (params : RSParams)
    (henc : encode_data P k n = .ok (shards, params)) :
    (reconstruct_data (shards.map fun s => some s) (List.range n) params
        P.length).success = true ∧
    (reconstruct_data (shards.map fun s => some s) (List.range n) params
        P.length).data = some P := by
  obtain ⟨nsym, rfl⟩ : ∃ nsym, n = k + nsym := ⟨n - k, by omega⟩
  rw [encode_data_ok P k (k + nsym) hk hkn] at henc
  injection henc with h
  injection h with h1 h2
  subst h1
  subst h2
  rw [show k + nsym - k = nsym from by omega]
  have hASlen : (dataShardsOf P k ++ parityShardsOf P k (k + nsym)).length = k + nsym := by
    rw [List.length_append, dataShardsOf_length, parityShardsOf_length]
    omega
  have hmap : (dataShardsOf P k ++ parityShardsOf P k (k + nsym)).map (fun s => some s) =
      (List.range (k + nsym)).map fun i =>
        some ((dataShardsOf P k ++ parityShardsOf P k (k + nsym)).getD i []) := by
    calc (dataShardsOf P k ++ parityShardsOf P k (k + nsym)).map (fun s => some s)
        = ((List.range (dataShardsOf P k ++ parityShardsOf P k (k + nsym)).length).map
            (fun i => (dataShardsOf P k ++ parityShardsOf P k (k + nsym)).getD i [])).map
            (fun s => some s) := by
          rw [map_range_getD_eq_self]
      _ = (List.range (k + nsym)).map fun i =>
            some ((dataShardsOf P k ++ parityShardsOf P k (k + nsym)).getD i []) := by
          rw [List.map_map, hASlen]
          rfl
  rw [hmap]
  exact reconstruct_data_enc_subset P k nsym (List.range (k + nsym)) hk (by omega)
    (fun i hi => List.mem_range.mp hi) (List.nodup_range _)
    (by rw [List.length_range]; omega)

theorem encode_reconstruct_roundtrip_witness :
    (reconstruct_data ([[GF256.ofNat 97], [GF256.ofNat 97]].map fun s => some s)
        (List.range 2)
        { data_shards := 1, parity_shards := 1, total_shards := 2, shard_size := 1 }
        ([GF256.ofNat 97] : List GF256).length).success = true ∧
    (reconstruct_data ([[GF256.ofNat 97], [GF256.ofNat 97]].map fun s => some s)
        (List.range 2)
        { data_shards := 1, parity_shards := 1, total_shards := 2, shard_size := 1 }
        ([GF256.ofNat 97] : List GF256).length).data = some [GF256.ofNat 97] :=
  encode_reconstruct_roundtrip [GF256.ofNat 97] 1 2 (by decide) (by decide) (by decide)
    [[GF256.ofNat 97], [GF256.ofNat 97]]
    { data_shards := 1, parity_shards := 1, total_shards := 2, shard_size := 1 }
    (by decide)

/-- C2: Shard-subset independence — for every plaintext `P` encoded with
`encode_data P k n` and every selection of at least `k` distinct shard
indices, `reconstruct_data` applied to the selected shards (with the
correct indices and params) succeeds and returns exactly `P`; since the
output is always exactly `P`, it does not depend on which qualifying
subset is chosen. -/
theorem reconstruct_subset_independent (P : List GF256) (k n : Nat)
    (hk : 1 ≤ k) (hkn : k < n) (hn : n ≤ 255)
    (shards : List (List GF256)) (params : RSParams)
    (henc : encode_data P k n = .ok (shards, params))
    (sel : List Nat) (hsub : ∀ i ∈ sel, i < n) (hnodup : sel.Nodup)
    (hcard : k ≤ sel.length) :
    (reconstruct_data (sel.map fun i => some (shards.getD i [])) sel params
        P.length).success = true ∧
    (reconstruct_data (sel.map fun i => some (shards.getD i [])) sel params
        P.length).data = some P := by
  obtain ⟨nsym, rfl⟩ : ∃ nsym, n = k + nsym := ⟨n - k, by omega⟩
  rw [encode_data_ok P k (k + nsym) hk hkn] at henc
  injection henc with h
  injection h with h1 h2
  subst h1
  subst h2
  rw [show k + nsym - k = nsym from by omega]
  exact reconstruct_data_enc_subset P k nsym sel hk (by omega) hsub hnodup hcard

theorem reconstruct_subset_independent_witness :
    (reconstruct_data ([1].map fun i =>
        some (([[GF256.ofNat 97], [GF256.ofNat 97]] : List (List GF256)).getD i [])) [1]
        { data_shards := 1, parity_shards := 1, total_shards := 2, shard_size := 1 }
        ([GF256.ofNat 97] : List GF256).length).success = true ∧
    (reconstruct_data ([1].map fun i =>
        some (([[GF256.ofNat 97], [GF256.ofNat 97]] : List (List GF256)).getD i [])) [1]
        { data_shards := 1, parity_shards := 1, total_shards := 2, shard_size := 1 }
        ([GF256.ofNat 97] : List GF256).length).data = some [GF256.ofNat 97] :=
  reconstruct_subset_independent [GF256.ofNat 97] 1 2 (by decide) (by decide) (by decide)
    [[GF256.ofNat 97], [GF256.ofNat 97]]
    { data_shards := 1, parity_shards := 1, total_shards := 2, shard_size := 1 }
    (by decide) [1] (by decide) (by decide) (by decide)

/-- C3: Fast-path equivalence — over the shards of `encode_data P k n`, for
every selection of at least `k` distinct indices in which all data-shard
indices `0..k-1` are present, the fast-path assembly (concatenate the data
shards in index order, truncate to the original size) and the
erasure-decoding path of `reconstruct_data` produce byte-for-byte identical
output. -/
theorem fast_path_erasure_path_agree (P : List GF256) (k n : Nat)
    (hk : 1 ≤ k) (hkn : k < n) (hn : n ≤ 255)
    (shards : List (List GF256)) (params : RSParams)
    (henc : encode_data P k n = .ok (shards, params))
    (sel : List Nat) (hsub : ∀ i ∈ sel, i < n) (hnodup : sel.Nodup)
    (hcard : k ≤ sel.length) (hdata : ∀ i, i < k → i ∈ sel) (ac : Nat) :
    some (fastPathData
        (buildShardMap sel (sel.map fun i => some (shards.getD i []))) k P.length) =
      (erasurePathResult
        (buildShardMap sel (sel.map fun i => some (shards.getD i [])))
        params P.length ac).data := by
  obtain ⟨nsym, rfl⟩ : ∃ nsym, n = k + nsym := ⟨n - k, by omega⟩
  rw [encode_data_ok P k (k + nsym) hk hkn] at henc
  injection henc with h
  injection h with h1 h2
  subst h1
  subst h2
  rw [show k + nsym - k = nsym from by omega]
  rw [fastPath_eq P k (k + nsym) hk sel hdata]
  rw [(erasurePath_enc P k nsym sel hk (by omega) hsub hnodup hcard ac).2]

theorem fast_path_erasure_path_agree_witness :
    some (fastPathData
        (buildShardMap [0, 1] ([0, 1].map fun i =>
          some (([[GF256.ofNat 97], [GF256.ofNat 98], [GF256.ofNat 3]] :
            List (List GF256)).getD i []))) 2
        ([GF256.ofNat 97, GF256.ofNat 98] : List GF256).length) =
      (erasurePathResult
        (buildShardMap [0, 1] ([0, 1].map fun i =>
          some (([[GF256.ofNat 97], [GF256.ofNat 98], [GF256.ofNat 3]] :
            List (List GF256)).getD i [])))
        { data_shards := 2, parity_shards := 1, total_shards := 3, shard_size := 1 }
        ([GF256.ofNat 97, GF256.ofNat 98] : List GF256).length 2).data :=
  fast_path_erasure_path_agree [GF256.ofNat 97, GF256.ofNat 98] 2 3 (by decide)
    (by decide) (by decide)
    [[GF256.ofNat 97], [GF256.ofNat 98], [GF256.ofNat 3]]
    { data_shards := 2, parity_shards := 1, total_shards := 3, shard_size := 1 }
    (by decide) [0, 1] (by decide) (by decide) (by decide) (by decide) 2

theorem except_error_isOk {α : Type} (e : String) :
    (Except.error e : Except String α).isOk = false := rfl

theorem except_ok_isOk {α : Type} (a : α) :
    (Except.ok a : Except String α).isOk = true := rfl

/-- C4 (amended): `encode_data data k n` fails (raises `ValueError`) if and
only if `n ≤ k` or `k < 1`; the upper bound `n ≤ 255` of the claim is not
checked. -/
theorem encode_data_error_iff (data : List GF256) (k n : Nat) :
    (encode_data data k n).isOk = false ↔ n ≤ k ∨ k < 1 := by
  unfold encode_data
  split_ifs with h1 h2
  · rw [except_error_isOk]
    exact ⟨fun _ => Or.inl h1, fun _ => rfl⟩
  · rw [except_error_isOk]
    exact ⟨fun _ => Or.inr h2, fun _ => rfl⟩
  · rw [except_ok_isOk]
    constructor
    · intro h
      exact absurd h (by decide)
    · intro h
      exfalso
      rcases h with h | h
      · exact h1 h
      · exact h2 h

/-- C4 counterexample: `encode_data [] 2 258` has `n = 258 > 255`, yet the
call succeeds instead of failing as the claim requires. -/
theorem encode_data_no_n_bound_cex :
    (258 : Nat) > 255 ∧ (encode_data [] 2 258).isOk = true :=
  ⟨by decide, by decide⟩

/-- C10: `analyze_reconstruction` determines feasibility from the raw
length of `available_indices`, so every list with at least `k` entries —
duplicates included — is reported feasible. -/
theorem analyze_reconstruction_feasible_of_length (available_indices : List Nat)
    (k n : Nat) (h : k ≤ available_indices.length) :
    (analyze_reconstruction available_indices k n).feasible = true := by
  unfold analyze_reconstruction
  exact decide_eq_true h

theorem analyze_reconstruction_feasible_of_length_witness :
    2 ≤ ([0, 0] : List Nat).length ∧ ([0, 0] : List Nat).dedup.length < 2 ∧
      (analyze_reconstruction [0, 0] 2 3).feasible = true :=
  ⟨by decide, by decide,
    analyze_reconstruction_feasible_of_length [0, 0] 2 3 (by decide)⟩

theorem buildShardMap_val_mem (sel : List Nat) (shs : List (Option (List GF256)))
    (i : Nat) (b : List GF256) (h : buildShardMap sel shs i = some b) : some b ∈ shs := by
  unfold buildShardMap at h
  have key : ∀ (pairs : List (Nat × Option (List GF256))), (∀ p ∈ pairs, p.2 ∈ shs) →
      ∀ (m0 : Nat → Option (List GF256)), (∀ j c, m0 j = some c → some c ∈ shs) →
      ∀ j c, (pairs.foldl
        (fun m p =>
          match p.2 with
          | some d => fun i => if i = p.1 then some d else m i
          | none => m) m0) j = some c → some c ∈ shs := by
    intro pairs
    induction pairs with
    | nil =>
      intro _ m0 hm0 j c hc
      exact hm0 j c hc
    | cons p rest ih =>
      intro hmem m0 hm0 j c hc
      rw [List.foldl_cons] at hc
      refine ih (fun q hq => hmem q (List.mem_cons_of_mem p hq)) _ ?_ j c hc
      intro j2 c2 h2
      cases hp2 : p.2 with
      | none =>
        rw [hp2] at h2
        exact hm0 j2 c2 h2
      | some d =>
        rw [hp2] at h2
        have h3 : (if j2 = p.1 then some d else m0 j2) = some c2 := h2
        by_cases hj : j2 = p.1
        · rw [if_pos hj] at h3
          injection h3 with h4
          rw [← h4, ← hp2]
          exact hmem p (List.mem_cons_self p rest)
        · rw [if_neg hj] at h3
          exact hm0 j2 c2 h3
  refine key (List.zip sel shs) ?_ _ ?_ i b h
  · intro p hp
    exact (List.of_mem_zip hp).2
  · intro j c hc
    exact Option.noConfusion hc

theorem erasureColumnsGo_ok_length (map : Nat → Option (List GF256)) (k n : Nat) :
    ∀ (ps : List Nat) (cols : List (List GF256)) (corr : Nat),
      erasureColumnsGo map k n ps = .ok (cols, corr) → cols.length = ps.length := by
  intro ps
  induction ps with
  | nil =>
    intro cols corr h
    unfold erasureColumnsGo at h
    rw [Except.ok.injEq, Prod.mk.injEq] at h
    rw [← h.1]
    rfl
  | cons p rest ih =>
    intro cols corr h
    cases hcol : erasureColumn map n p with
    | error e =>
      simp only [erasureColumnsGo, hcol] at h
      exact Except.noConfusion h
    | ok pr =>
      obtain ⟨cw, er⟩ := pr
      cases hdec : rsDecodeColumn cw er k n with
      | error e =>
        simp only [erasureColumnsGo, hcol, hdec] at h
        exact Except.noConfusion h
      | ok decoded =>
        cases hrest : erasureColumnsGo map k n rest with
        | error e =>
          simp only [erasureColumnsGo, hcol, hdec, hrest] at h
          exact Except.noConfusion h
        | ok pr2 =>
          obtain ⟨cols2, corr2⟩ := pr2
          simp only [erasureColumnsGo, hcol, hdec, hrest, Except.ok.injEq,
            Prod.mk.injEq] at h
          rw [← h.1, List.length_cons, ih cols2 corr2 hrest]
          rfl

/-- C6: Size fidelity — whenever `reconstruct_data` succeeds on shards of
the uniform length `params.shard_size` and
`original_size ≤ data_shards · shard_size`, the returned bytes have length
exactly `original_size` (including the zero-byte and 1-byte cases). -/
theorem reconstruct_data_size_fidelity (shards : List (Option (List GF256)))
    (idxs : List Nat) (params : RSParams) (orig : Nat)
    (hlen : ∀ b : List GF256, some b ∈ shards → b.length = params.shard_size)
    (horig : orig ≤ params.data_shards * params.shard_size)
    (hsucc : (reconstruct_data shards idxs params orig).success = true) :
    ((reconstruct_data shards idxs params orig).data.getD []).length = orig := by
  by_cases h1 : (shards.filter Option.isSome).length < params.data_shards
  · have heq : reconstruct_data shards idxs params orig =
        { success := false, data := none, original_size := orig, shards_used := 0,
          shards_available := (shards.filter Option.isSome).length,
          shards_required := params.data_shards,
          error := some s!"Need {params.data_shards} shards, only {(shards.filter Option.isSome).length} available" } := by
      simp only [reconstruct_data]
      rw [if_pos h1]
    rw [heq] at hsucc
    exact Bool.noConfusion hsucc
  · by_cases h2 : ((List.range params.data_shards).all fun i =>
        (buildShardMap idxs shards i).isSome) = true
    · have heq : reconstruct_data shards idxs params orig =
          { success := true,
            data := some (fastPathData (buildShardMap idxs shards)
              params.data_shards orig),
            original_size := orig, shards_used := params.data_shards,
            shards_available := (shards.filter Option.isSome).length,
            shards_required := params.data_shards, corrected_errors := 0 } := by
        simp only [reconstruct_data]
        rw [if_neg h1, if_pos h2]
      rw [heq]
      show (fastPathData (buildShardMap idxs shards) params.data_shards orig).length = orig
      unfold fastPathData
      rw [List.length_take]
      have hflat : (((List.range params.data_shards).map fun i =>
          ((buildShardMap idxs shards i).getD [])).flatten).length =
          params.data_shards * params.shard_size := by
        rw [List.length_flatten, List.map_map]
        have hconst : ∀ i ∈ List.range params.data_shards,
            (List.length ∘ fun i => ((buildShardMap idxs shards i).getD [])) i =
              params.shard_size := by
          intro i hi
          simp only [Function.comp_apply]
          rw [List.all_eq_true] at h2
          obtain ⟨b, hb⟩ := Option.isSome_iff_exists.mp (h2 i hi)
          rw [hb, Option.getD_some]
          exact hlen b (buildShardMap_val_mem idxs shards i b hb)
        rw [List.map_congr_left hconst, List.map_const', List.sum_replicate,
          List.length_range, smul_eq_mul]
      rw [hflat]
      omega
    · cases hgo : erasureColumnsGo (buildShardMap idxs shards) params.data_shards
          params.total_shards (List.range params.shard_size) with
      | error e =>
        have heq : reconstruct_data shards idxs params orig =
            { success := false, data := none, original_size := orig, shards_used := 0,
              shards_available := (shards.filter Option.isSome).length,
              shards_required := params.data_shards, error := some e } := by
          simp only [reconstruct_data]
          rw [if_neg h1, if_neg h2]
          unfold erasurePathResult
          simp only [hgo]
        rw [heq] at hsucc
        exact Bool.noConfusion hsucc
      | ok pr =>
        obtain ⟨cols, corr⟩ := pr
        have heq : reconstruct_data shards idxs params orig =
            { success := true,
              data := some ((((List.range params.data_shards).map fun i =>
                cols.map fun col => col.getD i 0).flatten).take orig),
              original_size := orig,
              shards_used := (shards.filter Option.isSome).length,
              shards_available := (shards.filter Option.isSome).length,
              shards_required := params.data_shards, corrected_errors := corr } := by
          simp only [reconstruct_data]
          rw [if_neg h1, if_neg h2]
          unfold erasurePathResult
          simp only [hgo]
        rw [heq]
        show ((((List.range params.data_shards).map fun i =>
          cols.map fun col => col.getD i 0).flatten).take orig).length = orig
        rw [List.length_take]
        have hcols : cols.length = params.shard_size := by
          have h3 := erasureColumnsGo_ok_length (buildShardMap idxs shards)
            params.data_shards params.total_shards (List.range params.shard_size)
            cols corr hgo
          rwa [List.length_range] at h3
        have hflat : (((List.range params.data_shards).map fun i =>
            cols.map fun col => col.getD i 0).flatten).length =
            params.data_shards * params.shard_size := by
          rw [List.length_flatten, List.map_map]
          have hconst : ∀ i ∈ List.range params.data_shards,
              (List.length ∘ fun i => cols.map fun col => col.getD i 0) i =
                params.shard_size := by
            intro i hi
            simp only [Function.comp_apply]
            rw [List.length_map, hcols]
          rw [List.map_congr_left hconst, List.map_const', List.sum_replicate,
            List.length_range, smul_eq_mul]
        rw [hflat]
        omega

theorem reconstruct_data_size_fidelity_witness :
    ((reconstruct_data [some [GF256.ofNat 97]] [0]
        { data_shards := 1, parity_shards := 0, total_shards := 1, shard_size := 1 }
        1).data.getD []).length = 1 :=
  reconstruct_data_size_fidelity [some [GF256.ofNat 97]] [0]
    { data_shards := 1, parity_shards := 0, total_shards := 1, shard_size := 1 } 1
    (by
      intro b hb
      rw [List.mem_singleton, Option.some.injEq] at hb
      rw [hb]
      rfl)
    (by decide) (by decide)

theorem parseLeaves_length : ∀ (l : List String) (bs : List (List GF256)),
    parseLeaves l = some bs → bs.length = l.length := by
  intro l
  induction l with
  | nil =>
    intro bs h
    injection h with h
    rw [← h]
    rfl
  | cons x t ih =>
    intro bs h
    cases hx : hexToBytes x with
    | none =>
      simp only [parseLeaves, hx] at h
      exact Option.noConfusion h
    | some b =>
      cases ht : parseLeaves t with
      | none =>
        simp only [parseLeaves, hx, ht] at h
        exact Option.noConfusion h
      | some bt =>
        simp only [parseLeaves, hx, ht] at h
        injection h with h
        rw [← h, List.length_cons, List.length_cons, ih bt ht]

theorem parseLeaves_concat (l : List String) (x : String) :
    parseLeaves (l ++ [x]) =
      match parseLeaves l, hexToBytes x with
      | some bs, some b => some (bs ++ [b])
      | _, _ => none := by
  induction l with
  | nil => cases hx : hexToBytes x <;> simp [parseLeaves, hx]
  | cons h t ih =>
    cases hh : hexToBytes h <;> cases ht : parseLeaves t <;> cases hx : hexToBytes x <;>
      simp [parseLeaves, hh, ht, hx, ih]

theorem parseLeaves_getLast : ∀ (l : List String) (bs : List (List GF256))
    (d : String) (d2 : List GF256), l ≠ [] → parseLeaves l = some bs →
    hexToBytes (l.getLastD d) = some (bs.getLastD d2) := by
  intro l
  induction l with
  | nil =>
    intro bs d d2 hne
    exact absurd rfl hne
  | cons x t ih =>
    intro bs d d2 _ h
    cases hx : hexToBytes x with
    | none =>
      simp only [parseLeaves, hx] at h
      exact Option.noConfusion h
    | some b =>
      cases ht : parseLeaves t with
      | none =>
        simp only [parseLeaves, hx, ht] at h
        exact Option.noConfusion h
      | some bt =>
        simp only [parseLeaves, hx, ht] at h
        injection h with h
        rw [← h, List.getLastD_cons, List.getLastD_cons]
        cases t with
        | nil =>
          injection ht with ht
          rw [← ht]
          simp only [List.getLastD]
          exact hx
        | cons y t2 => exact ih bt x b (by simp) ht

theorem merkleLevel_length (l : List (List GF256)) :
    (merkleLevel l).length = l.length / 2 := by
  have key : ∀ (n : Nat) (l : List (List GF256)), l.length ≤ n →
      (merkleLevel l).length = l.length / 2 := by
    intro n
    induction n with
    | zero =>
      intro l hl
      have h0 : l = [] := List.eq_nil_of_length_eq_zero (by omega)
      subst h0
      rfl
    | succ n ih =>
      intro l hl
      match l with
      | [] => rfl
      | [x] => simp [merkleLevel]
      | x :: y :: rest =>
        show (sha256 (x ++ y) :: merkleLevel rest).length = (x :: y :: rest).length / 2
        rw [List.length_cons, ih rest (by simp at hl ⊢; omega)]
        simp only [List.length_cons]
        omega
  exact key l.length l le_rfl

theorem merkleLoopF_succ (fuel : Nat) (layer : List (List GF256)) :
    merkleLoopF (fuel + 1) layer =
      if layer.length ≤ 1 then layer
      else merkleLoopF fuel (merkleLevel
        (if layer.length % 2 = 1 then layer ++ [layer.getLastD []] else layer)) := rfl

theorem merkleLoopF_congr : ∀ (f g : Nat) (l : List (List GF256)),
    l.length ≤ f + 1 → l.length ≤ g + 1 → merkleLoopF f l = merkleLoopF g l := by
  intro f
  induction f with
  | zero =>
    intro g l hf hg
    show l = merkleLoopF g l
    cases g with
    | zero => rfl
    | succ g =>
      rw [merkleLoopF_succ, if_pos hf]
  | succ f ih =>
    intro g l hf hg
    cases g with
    | zero =>
      rw [merkleLoopF_succ, if_pos hg]
      rfl
    | succ g =>
      rw [merkleLoopF_succ, merkleLoopF_succ]
      by_cases h1 : l.length ≤ 1
      · rw [if_pos h1, if_pos h1]
      · rw [if_neg h1, if_neg h1]
        have hplen : (if l.length % 2 = 1 then l ++ [l.getLastD []] else l).length ≤
            l.length + 1 := by
          split_ifs
          · simp
          · omega
        apply ih g
        · rw [merkleLevel_length]
          omega
        · rw [merkleLevel_length]
          omega

/-- C7 (amended): Merkle odd-layer duplication invariance holds for every
list of leaves with odd length at least 3 — `compute_merkle_root L` equals
`compute_merkle_root` of `L` with its last element duplicated.  (The
one-leaf case is excluded: there the root is the leaf itself, not a hash.) -/
theorem compute_merkle_root_odd_dup (L : List String) (hodd : L.length % 2 = 1)
    (h3 : 3 ≤ L.length) :
    compute_merkle_root L = compute_merkle_root (L ++ [L.getLastD ""]) := by
  have hne : L ≠ [] := by
    intro h
    rw [h] at h3
    simp at h3
  unfold compute_merkle_root
  rw [if_neg (by rw [List.isEmpty_eq_false.mpr hne]; exact Bool.noConfusion),
    if_neg (by rw [List.isEmpty_eq_false.mpr (by simp)]; exact Bool.noConfusion)]
  cases hparse : parseLeaves L with
  | none =>
    have hp2 : parseLeaves (L ++ [L.getLastD ""]) = none := by
      rw [parseLeaves_concat, hparse]
    rw [hp2]
  | some layer =>
    have hlast := parseLeaves_getLast L layer "" [] hne hparse
    have hp2 : parseLeaves (L ++ [L.getLastD ""]) =
        some (layer ++ [layer.getLastD []]) := by
      rw [parseLeaves_concat, hparse, hlast]
    rw [hp2]
    have hlen : layer.length = L.length := parseLeaves_length L layer hparse
    have hloop : merkleLoopF layer.length layer =
        merkleLoopF (layer ++ [layer.getLastD []]).length
          (layer ++ [layer.getLastD []]) := by
      obtain ⟨f, hf⟩ : ∃ f, layer.length = f + 1 := ⟨layer.length - 1, by omega⟩
      have happlen : (layer ++ [layer.getLastD []]).length = f + 1 + 1 := by
        rw [List.length_append, hf]
        rfl
      rw [hf, happlen, merkleLoopF_succ f layer,
        merkleLoopF_succ (f + 1) (layer ++ [layer.getLastD []]),
        if_neg (show ¬ layer.length ≤ 1 by omega),
        if_neg (show ¬ (layer ++ [layer.getLastD []]).length ≤ 1 by
          rw [happlen]; omega),
        if_pos (show layer.length % 2 = 1 by omega),
        if_neg (show ¬ (layer ++ [layer.getLastD []]).length % 2 = 1 by
          rw [happlen]; omega)]
      apply merkleLoopF_congr
      · rw [merkleLevel_length, happlen]
        omega
      · rw [merkleLevel_length, happlen]
        omega
    show Except.ok (bytesToHex ((merkleLoopF layer.length layer).getD 0 [])) =
      Except.ok (bytesToHex ((merkleLoopF (layer ++ [layer.getLastD []]).length
        (layer ++ [layer.getLastD []])).getD 0 []))
    rw [hloop]

theorem compute_merkle_root_odd_dup_witness :
    compute_merkle_root ["aa", "bb", "cc"] =
      compute_merkle_root (["aa", "bb", "cc"] ++ [(["aa", "bb", "cc"] :
        List String).getLastD ""]) :=
  compute_merkle_root_odd_dup ["aa", "bb", "cc"] (by decide) (by decide)

/-- C7 counterexample: a single leaf has odd length, but duplicating it
changes the root — `compute_merkle_root ["ab"]` returns the leaf itself
while `compute_merkle_root ["ab", "ab"]` hashes the pair. -/
theorem merkle_single_leaf_dup_cex :
    (["ab"] : List String).length % 2 = 1 ∧
      compute_merkle_root ["ab"] ≠ compute_merkle_root ["ab", "ab"] :=
  ⟨by decide, by decide⟩

/-- C5 (amended): `verify_manifest` checks only that the five required
top-level fields are present, that `hash_algorithm` is `"sha256"`, that the
three `rs` keys are present, and that at least `data_shards` shard
descriptors are listed.  The claimed consistency conditions —
`data_shards + parity_shards = total_shards`, no duplicate shard indices,
indices within `[0, total_shards)` — are not enforced: every manifest
meeting the former conditions passes, whatever its `parity_shards`,
`total_shards` and shard indices. -/
theorem verify_manifest_accepts (v : String) (o : Int) (oh : Option String)
    (d p t : Int) (sh : List ShardDesc) (enc : Option EncryptionBlock)
    (hlen : d ≤ (sh.length : Int)) :
    verify_manifest
      { version := some v, hash_algorithm := some "sha256",
        original_size_bytes := some o, original_hash := oh,
        rs := some { data_shards := some d, parity_shards := some p,
                     total_shards := some t },
        shards := some sh, merkle := none, encryption := enc } none = .ok () := by
  have h2 : ¬ ((sh.length : Int) < d) := not_lt.mpr hlen
  simp [verify_manifest, verifyManifestShardFiles, h2]

theorem verify_manifest_accepts_witness :
    verify_manifest
      { version := some "nebula_reconstruct_v1", hash_algorithm := some "sha256",
        original_size_bytes := some 100, original_hash := none,
        rs := some { data_shards := some 2, parity_shards := some 2,
                     total_shards := some 5 },
        shards := some [
          { index := some 7, path := some "a", hash := some "aa", size_bytes := none },
          { index := some 7, path := some "b", hash := some "bb", size_bytes := none }],
        merkle := none, encryption := none } none = .ok () :=
  verify_manifest_accepts "nebula_reconstruct_v1" 100 none 2 2 5
    [{ index := some 7, path := some "a", hash := some "aa", size_bytes := none },
     { index := some 7, path := some "b", hash := some "bb", size_bytes := none }]
    none (by decide)

/-- C5 counterexample: a manifest whose `rs` block has
`data_shards = 2`, `parity_shards = 2`, `total_shards = 5` (the sum does
not match) and whose two shard descriptors carry the duplicate
out-of-range index `7` — yet `verify_manifest` accepts it instead of
failing with a ManifestInvalid-kind error. -/
theorem verify_manifest_structural_cex :
    verify_manifest
      { version := some "nebula_reconstruct_v1", hash_algorithm := some "sha256",
        original_size_bytes := some 100, original_hash := none,
        rs := some { data_shards := some 2, parity_shards := some 2,
                     total_shards := some 5 },
        shards := some [
          { index := some 7, path := some "a", hash := some "aa", size_bytes := none },
          { index := some 7, path := some "b", hash := some "bb", size_bytes := none }],
        merkle := none, encryption := none } none = .ok () ∧
    (2 : Int) + 2 ≠ 5 ∧ ¬ ((7 : Nat) < 5) :=
  ⟨by decide, by decide, by decide⟩

/-- Does a `reconstruct_file` outcome fail with a ManifestInvalid-kind
error? -/
def isManifestInvalidErr : Except RecError (List GF256 × ReconstructionReport) → Bool
  | .error (.manifestInvalid _) => true
  | _ => false

/-- C8 (amended): for every manifest whose encryption block names
`aes-256-gcm`, omits `tag` and carries a non-empty valid-hex IV, a
non-empty key, and an AEAD open that rejects every input shorter than 16
bytes, when the pipeline reaches decryption with post-RS bytes shorter
than 16, `reconstruct_file` fails with a DecryptionFailed-kind
`ManifestError` — not a ManifestInvalid-kind one as the claim states. -/
theorem reconstruct_file_tagless_short_fails_decryption
    (M : Manifest) (fs : String → Option (List GF256)) (keyBytes : List GF256)
    (aead : List GF256 → List GF256 → List GF256 → Except String (List GF256))
    (etext : String) (enc : EncryptionBlock) (rsb : RSBlock)
    (dI tI osI : Int) (infos : List ShardInfo) (s0 : ShardInfo)
    (ivh : String) (iv : List GF256)
    (haead : ∀ kb iv2 ct, ct.length < 16 → aead kb iv2 ct = .error etext)
    (hrs : M.rs = some rsb) (hd : rsb.data_shards = some dI)
    (ht : rsb.total_shards = some tI) (hos : M.original_size_bytes = some osI)
    (hload : load_and_verify_shards M fs = .ok infos)
    (hfeas : dI.toNat ≤ (infos.filter fun s => s.valid).length)
    (hhead : (infos.filter fun s => s.valid).head? = some s0)
    (hsucc : (reconstruct_data ((infos.filter fun s => s.valid).map fun s => s.data)
        ((infos.filter fun s => s.valid).map fun s => s.index)
        { data_shards := dI.toNat, parity_shards := tI.toNat - dI.toNat,
          total_shards := tI.toNat, shard_size := (s0.data.getD []).length }
        osI.toNat).success = true)
    (hshort : ((reconstruct_data ((infos.filter fun s => s.valid).map fun s => s.data)
        ((infos.filter fun s => s.valid).map fun s => s.index)
        { data_shards := dI.toNat, parity_shards := tI.toNat - dI.toNat,
          total_shards := tI.toNat, shard_size := (s0.data.getD []).length }
        osI.toNat).data.getD []).length < 16)
    (henc : M.encryption = some enc) (halg : enc.algorithm = some "aes-256-gcm")
    (htag : enc.tag = none) (hiv : enc.iv = some ivh) (hivne : ivh ≠ "")
    (hivhex : hexToBytes ivh = some iv) (hkb : keyBytes ≠ []) :
    reconstruct_file M fs (some keyBytes) aead true =
      .error (.decryptionFailed ("Decryption failed: " ++ etext)) := by
  cases keyBytes with
  | nil => exact absurd rfl hkb
  | cons b bs =>
    have hdec := haead (b :: bs) iv _ hshort
    simp only [reconstruct_file, hrs, hd, ht, hos, hload, hhead, hsucc, henc, halg,
      htag, hiv, hivne, hivhex, hdec, hfeas, Option.getD_some, decide_eq_true_eq,
      not_true, Bool.not_eq_true, if_false, decide_True, ite_not]
    simp [decide_eq_true hfeas, hsucc, hivne, hdec]

theorem reconstruct_file_tagless_short_fails_decryption_witness :
    reconstruct_file
      { version := none, hash_algorithm := none, original_size_bytes := some 2,
        original_hash := none,
        rs := some { data_shards := some 1, parity_shards := some 1,
                     total_shards := some 2 },
        shards := some [{ index := some 0, path := some "s0",
                          hash := some (sha256Hex [GF256.ofNat 97, GF256.ofNat 98]),
                          size_bytes := none }],
        merkle := none,
        encryption := some { algorithm := some "aes-256-gcm",
                             iv := some "0c0c0c0c0c0c0c0c0c0c0c0c", tag := none } }
      (fun p => if p = "s0" then some [GF256.ofNat 97, GF256.ofNat 98] else none)
      (some [GF256.ofNat 1])
      (fun _ _ ct => if ct.length < 16 then .error "InvalidTag" else .ok [])
      true = .error (.decryptionFailed ("Decryption failed: " ++ "InvalidTag")) :=
  reconstruct_file_tagless_short_fails_decryption
    { version := none, hash_algorithm := none, original_size_bytes := some 2,
      original_hash := none,
      rs := some { data_shards := some 1, parity_shards := some 1,
                   total_shards := some 2 },
      shards := some [{ index := some 0, path := some "s0",
                        hash := some (sha256Hex [GF256.ofNat 97, GF256.ofNat 98]),
                        size_bytes := none }],
      merkle := none,
      encryption := some { algorithm := some "aes-256-gcm",
                           iv := some "0c0c0c0c0c0c0c0c0c0c0c0c", tag := none } }
    (fun p => if p = "s0" then some [GF256.ofNat 97, GF256.ofNat 98] else none)
    [GF256.ofNat 1]
    (fun _ _ ct => if ct.length < 16 then .error "InvalidTag" else .ok [])
    "InvalidTag"
    { algorithm := some "aes-256-gcm", iv := some "0c0c0c0c0c0c0c0c0c0c0c0c",
      tag := none }
    { data_shards := some 1, parity_shards := some 1, total_shards := some 2 }
    1 2 2
    [{ index := 0, path := "s0",
       expected_hash := sha256Hex [GF256.ofNat 97, GF256.ofNat 98], size := 0,
       data := some [GF256.ofNat 97, GF256.ofNat 98],
       actual_hash := some (sha256Hex [GF256.ofNat 97, GF256.ofNat 98]),
       valid := true, error := none }]
    { index := 0, path := "s0",
      expected_hash := sha256Hex [GF256.ofNat 97, GF256.ofNat 98], size := 0,
      data := some [GF256.ofNat 97, GF256.ofNat 98],
      actual_hash := some (sha256Hex [GF256.ofNat 97, GF256.ofNat 98]),
      valid := true, error := none }
    "0c0c0c0c0c0c0c0c0c0c0c0c"
    (List.replicate 12 (GF256.ofNat 12))
    (by
      intro kb iv2 ct h
      simp [h])
    rfl rfl rfl rfl (by decide) (by decide) (by decide) (by decide) (by decide)
    rfl rfl rfl rfl (by decide) (by decide) (by decide)

/-- C8 counterexample: a manifest whose encryption block omits `tag`, with
post-RS bytes of length 2 < 16 and an AEAD open that rejects short input —
`reconstruct_file` fails with a DecryptionFailed-kind error, not the
ManifestInvalid-kind error the claim states. -/
theorem reconstruct_file_tagless_short_kind_cex :
    reconstruct_file
      { version := none, hash_algorithm := none, original_size_bytes := some 2,
        original_hash := none,
        rs := some { data_shards := some 1, parity_shards := some 1,
                     total_shards := some 2 },
        shards := some [{ index := some 0, path := some "s0",
                          hash := some (sha256Hex [GF256.ofNat 97, GF256.ofNat 98]),
                          size_bytes := none }],
        merkle := none,
        encryption := some { algorithm := some "aes-256-gcm",
                             iv := some "0c0c0c0c0c0c0c0c0c0c0c0c", tag := none } }
      (fun p => if p = "s0" then some [GF256.ofNat 97, GF256.ofNat 98] else none)
      (some [GF256.ofNat 1])
      (fun _ _ ct => if ct.length < 16 then .error "InvalidTag" else .ok [])
      true = .error (.decryptionFailed "Decryption failed: InvalidTag") ∧
    isManifestInvalidErr (reconstruct_file
      { version := none, hash_algorithm := none, original_size_bytes := some 2,
        original_hash := none,
        rs := some { data_shards := some 1, parity_shards := some 1,
                     total_shards := some 2 },
        shards := some [{ index := some 0, path := some "s0",
                          hash := some (sha256Hex [GF256.ofNat 97, GF256.ofNat 98]),
                          size_bytes := none }],
        merkle := none,
        encryption := some { algorithm := some "aes-256-gcm",
                             iv := some "0c0c0c0c0c0c0c0c0c0c0c0c", tag := none } }
      (fun p => if p = "s0" then some [GF256.ofNat 97, GF256.ofNat 98] else none)
      (some [GF256.ofNat 1])
      (fun _ _ ct => if ct.length < 16 then .error "InvalidTag" else .ok [])
      true) = false :=
  ⟨by decide, by decide⟩

/-- C9 (code bug): at a manifest and shard directory on which verification
and reconstruction both succeed, `cmd_rebuild` crashes with an uncaught
`TypeError` — the `(bytes, report)` tuple returned by `reconstruct_file`
is passed to `Path.write_bytes` unpacked — instead of writing the
plaintext bytes and exiting 0.  The second conjunct shows the same
invocation's `reconstruct_file` does succeed.  The tests unpack
`data, report = reconstruct_file(...)`, so the tuple return is the
intent and `cli.py` is in error. -/
theorem cmd_rebuild_tuple_write_crash :
    cmd_rebuild
      { version := some "nebula_reconstruct_v1", hash_algorithm := some "sha256",
        original_size_bytes := some 2, original_hash := none,
        rs := some { data_shards := some 1, parity_shards := some 1,
                     total_shards := some 2 },
        shards := some [{ index := some 0, path := some "s0",
                          hash := some (sha256Hex [GF256.ofNat 97, GF256.ofNat 98]),
                          size_bytes := none }],
        merkle := none, encryption := none }
      (fun p => if p = "s0" then some [GF256.ofNat 97, GF256.ofNat 98] else none)
      none (fun _ _ ct => .ok ct) = { exit_code := none, written := none } ∧
    (reconstruct_file
      { version := some "nebula_reconstruct_v1", hash_algorithm := some "sha256",
        original_size_bytes := some 2, original_hash := none,
        rs := some { data_shards := some 1, parity_shards := some 1,
                     total_shards := some 2 },
        shards := some [{ index := some 0, path := some "s0",
                          hash := some (sha256Hex [GF256.ofNat 97, GF256.ofNat 98]),
                          size_bytes := none }],
        merkle := none, encryption := none }
      (fun p => if p = "s0" then some [GF256.ofNat 97, GF256.ofNat 98] else none)
      none (fun _ _ ct => .ok ct) true).isOk = true :=
  ⟨by decide, by decide⟩

theorem encode_data_error_iff_witness :
    ((encode_data [] 2 2).isOk = false ↔ 2 ≤ 2 ∨ 2 < 1) ∧
    ((encode_data [] 2 3).isOk = false ↔ 3 ≤ 2 ∨ 2 < 1) :=
  ⟨encode_data_error_iff [] 2 2, encode_data_error_iff [] 2 3⟩
